import Mathlib

/-!
# In-memory file system (BSAI23029_PHASE1.cpp): embedding and verification

The C++ program keeps its tree in heap-allocated `Node` objects linked by raw
pointers (`firstChild`, `nextSibling`, `parent`) and a `FileSystem` object holding
the two pointers `root` and `current`.

Embedding.
* The free store is a list of cells; an address is an index into it.  A cell is
  `some node` while the object is live and `none` once it has been deleted.
  `new` always appends a fresh cell.
* A pointer is `Option Nat`; `none` is `nullptr`.
* Every operation returns `Option`: `none` stands for "the C++ program has no defined
  result here" (a null or dangling pointer is dereferenced, or a loop over a cyclic
  pointer chain never ends).  Loops and recursions over pointers carry a bound equal
  to the number of cells of the store; a walk that visits more cells than exist has
  necessarily entered a cycle.
* What an operation writes to `cout` is returned as a `String` next to the new state.
* `time(nullptr)` is a parameter (`Clock`): the two readings taken by the constructor.
* Streams are character sequences; `std::getline` and `operator>>` are modelled on them.
-/

namespace FS

/-! ## Data model -/

/-- A pointer to a `Node`: `none` is `nullptr`, `some a` is the address `a`. -/
abbrev Ptr := Option Nat

/-- The class `Node` (source lines 8-25), fields in declaration order. -/
structure Node where
  name : String
  isDirectory : Bool
  content : String
  firstChild : Ptr
  nextSibling : Ptr
  parent : Ptr
  createdAt : Int
  modifiedAt : Int
deriving DecidableEq, Repr

/-- The two readings of `time(nullptr)` taken by the `Node` constructor. -/
structure Clock where
  first : Int
  second : Int
deriving DecidableEq, Repr

/-- Constructor `Node(name, isDirectory)` (source lines 20-24). -/
def Node.new (name : String) (isDirectory : Bool) (clk : Clock) : Node :=
  { name := name, isDirectory := isDirectory, content := "",
    firstChild := none, nextSibling := none, parent := none,
    createdAt := clk.first, modifiedAt := clk.second }

/-- The free store: cell `a` holds the object at address `a`, or `none` once deleted. -/
abbrev Heap := List (Option Node)

/-- Reading through a pointer; `none` when the pointer is null or dangling. -/
def deref (h : Heap) : Ptr → Option Node
  | none => none
  | some a =>
    match h[a]? with
    | some (some n) => some n
    | _ => none

/-- Writing a field of the object behind a pointer; `none` when the pointer is null
or dangling. -/
def modify (h : Heap) (p : Ptr) (f : Node → Node) : Option Heap :=
  match p with
  | none => none
  | some a =>
    match deref h (some a) with
    | none => none
    | some n => some (h.set a (some (f n)))

/-- The expression `new Node(...)`: the new object gets the next fresh address. -/
def alloc (h : Heap) (n : Node) : Heap × Nat := (h ++ [some n], h.length)

/-- The class `FileSystem` (source lines 36-39): the free store it works on and its two
data members. -/
structure FileSystem where
  heap : Heap
  root : Ptr
  current : Ptr
deriving DecidableEq, Repr

/-- Constructor `FileSystem()` (source lines 130-133). -/
def FileSystem.new (clk : Clock) : FileSystem :=
  { heap := [some (Node.new "/" true clk)], root := some 0, current := some 0 }

/-! ## Tree engine -/

/-- The `while (child)` loop of `findChild` (source lines 43-46). -/
def findChildLoop (h : Heap) (name : String) : Nat → Ptr → Option Ptr
  | _, none => some none
  | 0, some _ => none
  | fuel + 1, some c =>
    match deref h (some c) with
    | none => none
    | some n => if n.name = name then some (some c) else findChildLoop h name fuel n.nextSibling

/-- Function `findChild(parent, name)` (source lines 41-48). -/
def findChild (h : Heap) (parent : Ptr) (name : String) : Option Ptr :=
  match deref h parent with
  | none => none
  | some n => findChildLoop h name h.length n.firstChild

/-- Recursion of `printPath(node)` (source lines 50-57); the result is the text written. -/
def printPathAux (h : Heap) : Nat → Ptr → Option String
  | 0, _ => none
  | fuel + 1, node =>
    match deref h node with
    | none => none
    | some n =>
      match n.parent with
      | none => some "/"
      | some q =>
        match printPathAux h fuel (some q) with
        | none => none
        | some s => some (s ++ n.name ++ "/")

/-- Function `printPath(node)` (source lines 50-57). -/
def printPath (h : Heap) (node : Ptr) : Option String :=
  printPathAux h h.length node

/-- Function `mkdir(name)` (source lines 144-153). -/
def mkdir (fs : FileSystem) (name : String) (clk : Clock) : Option (FileSystem × String) :=
  match findChild fs.heap fs.current name with
  | none => none
  | some (some _) => some (fs, "Directory already exists.\n")
  | some none =>
    let (h1, newDir) := alloc fs.heap (Node.new name true clk)
    match modify h1 (some newDir) (fun n => { n with parent := fs.current }) with
    | none => none
    | some h2 =>
      match deref h2 fs.current with
      | none => none
      | some cur =>
        match modify h2 (some newDir) (fun n => { n with nextSibling := cur.firstChild }) with
        | none => none
        | some h3 =>
          match modify h3 fs.current (fun n => { n with firstChild := some newDir }) with
          | none => none
          | some h4 => some ({ fs with heap := h4 }, "")

/-- Function `touch(name, content)` (source lines 155-165). -/
def touch (fs : FileSystem) (name : String) (content : String) (clk : Clock) :
    Option (FileSystem × String) :=
  match findChild fs.heap fs.current name with
  | none => none
  | some (some _) => some (fs, "File already exists.\n")
  | some none =>
    let (h1, newFile) := alloc fs.heap (Node.new name false clk)
    match modify h1 (some newFile) (fun n => { n with content := content }) with
    | none => none
    | some h1c =>
      match modify h1c (some newFile) (fun n => { n with parent := fs.current }) with
      | none => none
      | some h2 =>
        match deref h2 fs.current with
        | none => none
        | some cur =>
          match modify h2 (some newFile) (fun n => { n with nextSibling := cur.firstChild }) with
          | none => none
          | some h3 =>
            match modify h3 fs.current (fun n => { n with firstChild := some newFile }) with
            | none => none
            | some h4 => some ({ fs with heap := h4 }, "")

/-- Function `cd(name)` (source lines 167-178). -/
def cd (fs : FileSystem) (name : String) : Option (FileSystem × String) :=
  if name = ".." then
    match deref fs.heap fs.current with
    | none => none
    | some cur =>
      match cur.parent with
      | some q => some ({ fs with current := some q }, "")
      | none => some (fs, "")
  else
    match findChild fs.heap fs.current name with
    | none => none
    | some none => some (fs, "Directory not found.\n")
    | some (some t) =>
      match deref fs.heap (some t) with
      | none => none
      | some target =>
        if !target.isDirectory then some (fs, "Directory not found.\n")
        else some ({ fs with current := some t }, "")

/-- Function `pwd()` (source lines 180-183). -/
def pwd (fs : FileSystem) : Option (FileSystem × String) :=
  match printPath fs.heap fs.current with
  | none => none
  | some s => some (fs, s ++ "\n")

/-- The `while (child)` loop of `ls` (source lines 187-192); the result is the text
written. -/
def lsLoop (h : Heap) : Nat → Ptr → Option String
  | _, none => some ""
  | 0, some _ => none
  | fuel + 1, some c =>
    match deref h (some c) with
    | none => none
    | some n =>
      match lsLoop h fuel n.nextSibling with
      | none => none
      | some s => some (n.name ++ (if n.isDirectory then "/" else "") ++ " " ++ s)

/-- Function `ls()` (source lines 185-194). -/
def ls (fs : FileSystem) : Option (FileSystem × String) :=
  match deref fs.heap fs.current with
  | none => none
  | some cur =>
    match lsLoop fs.heap fs.heap.length cur.firstChild with
    | none => none
    | some s => some (fs, s ++ "\n")

/-- Function `cat(name)` (source lines 196-203). -/
def cat (fs : FileSystem) (name : String) : Option (FileSystem × String) :=
  match findChild fs.heap fs.current name with
  | none => none
  | some none => some (fs, "File not found.\n")
  | some (some f) =>
    match deref fs.heap (some f) with
    | none => none
    | some file =>
      if file.isDirectory then some (fs, "File not found.\n")
      else some (fs, file.content ++ "\n")

/-- Function `deleteTree(node)` (source lines 137-142). -/
def deleteTree : Nat → Heap → Ptr → Option Heap
  | _, h, none => some h
  | 0, _, some _ => none
  | fuel + 1, h, some a =>
    match deref h (some a) with
    | none => none
    | some n =>
      match deleteTree fuel h n.firstChild with
      | none => none
      | some h1 =>
        match deref h1 (some a) with
        | none => none
        | some n1 =>
          match deleteTree fuel h1 n1.nextSibling with
          | none => none
          | some h2 =>
            match deref h2 (some a) with
            | none => none
            | some _ => some (h2.set a none)

/-! ## Persistence codec -/

/-- The text `operator<<` writes for a `time_t` (a signed decimal number). -/
def showLong (v : Int) : List Char :=
  match v with
  | Int.ofNat n => Nat.toDigits 10 n
  | Int.negSucc n => '-' :: Nat.toDigits 10 (n + 1)

/-- The line written for one node (source line 61), without the line end. -/
def encodeLine (n : Node) : List Char :=
  n.name.data ++ ['|'] ++ (if n.isDirectory then ['1'] else ['0']) ++ ['|'] ++
    n.content.data ++ ['|'] ++ showLong n.createdAt ++ ['|'] ++ showLong n.modifiedAt

/-- Function `serializeNode(node, out)` (source lines 59-64); the result is the text
appended to `out`. -/
def serializeNode (h : Heap) : Nat → Ptr → Option (List Char)
  | _, none => some []
  | 0, some _ => none
  | fuel + 1, some a =>
    match deref h (some a) with
    | none => none
    | some n =>
      match serializeNode h fuel n.firstChild with
      | none => none
      | some kids =>
        match serializeNode h fuel n.nextSibling with
        | none => none
        | some sibs => some (encodeLine n ++ ['\n'] ++ kids ++ sibs)

/-- Call `std::getline(stream, str, delim)` on the unread rest of a stream: `none` when
nothing is left (the call fails and the string keeps its value), otherwise the
characters before the first delimiter and the rest after it. -/
def getline (inp : List Char) (delim : Char) : Option (List Char × List Char) :=
  match inp with
  | [] => none
  | _ => some (inp.takeWhile (fun c => c != delim), (inp.dropWhile (fun c => c != delim)).drop 1)

/-- Characters `operator>>` skips before a number (`std::isspace` in the C locale). -/
def isSpace (c : Char) : Bool :=
  c = ' ' || c = '\t' || c = '\n' || c = '\x0b' || c = '\x0c' || c = '\r'

/-- Value of a run of decimal digits. -/
def digitsValue (ds : List Char) : Nat :=
  ds.foldl (fun acc d => 10 * acc + (d.toNat - '0'.toNat)) 0

/-- Largest `time_t` (a signed 64-bit integer). -/
def longMax : Int := 2 ^ 63 - 1

/-- Smallest `time_t`. -/
def longMin : Int := -(2 ^ 63)

/-- The call `ss >> value` for a `time_t` on the unread rest of a good stream.
`none`: nothing but white space is left, the stream fails and `value` keeps what it
held.  `some (v, ok, rest)`: `v` is stored (`0` when no digit is found, the nearest
bound when the number does not fit), `ok` tells whether the stream is still good, and
`rest` is what remains unread. -/
def extractLong (inp : List Char) : Option (Int × Bool × List Char) :=
  match inp.dropWhile isSpace with
  | [] => none
  | c :: cs =>
    let negative := c = '-'
    let body := if c = '-' || c = '+' then cs else c :: cs
    let ds := body.takeWhile Char.isDigit
    let rest := body.dropWhile Char.isDigit
    if ds.isEmpty then some (0, false, rest)
    else
      let v : Int := if negative then -(digitsValue ds : Int) else (digitsValue ds : Int)
      if v > longMax then some (longMax, false, rest)
      else if v < longMin then some (longMin, false, rest)
      else some (v, !rest.isEmpty, rest)

/-- The decoding of one non-empty line (source lines 70-82) into a node with the given
parent and no links yet.  `uninit` is what the uninitialised locals `createdAt` and
`modifiedAt` hold when an extraction leaves them untouched.  The clock readings taken by
the constructor are overwritten at once (source lines 80-81), so they do not appear. -/
def decodeLine (uninit : Int × Int) (line : List Char) (parent : Ptr) : Node :=
  let (name, r1) := (getline line '|').getD ([], [])
  let (isDirStr, r2) := (getline r1 '|').getD ([], [])
  let (content, r3) := (getline r2 '|').getD ([], [])
  let stamps : Int × Int :=
    match extractLong r3 with
    | none => uninit
    | some (v1, ok, r4) =>
      if ok then
        match extractLong r4 with
        | none => (v1, uninit.2)
        | some (v2, _, _) => (v1, v2)
      else (v1, uninit.2)
  { name := String.mk name, isDirectory := isDirStr = ['1'], content := String.mk content,
    firstChild := none, nextSibling := none, parent := parent,
    createdAt := stamps.1, modifiedAt := stamps.2 }

/-- Function `deserializeNode(in, parent)` (source lines 66-87) on the unread rest `inp`
of the stream; the result is the new store, the rest of the stream and the pointer
returned. -/
def deserializeNode (uninit : Int × Int) : Nat → Heap → List Char → Ptr →
    Option (Heap × List Char × Ptr)
  | 0, _, _, _ => none
  | fuel + 1, h, inp, parent =>
    match getline inp '\n' with
    | none => some (h, [], none)
    | some (line, rest) =>
      if line.isEmpty then some (h, rest, none)
      else
        let (h1, node) := alloc h (decodeLine uninit line parent)
        match deserializeNode uninit fuel h1 rest (some node) with
        | none => none
        | some (h2, rest2, fc) =>
          match modify h2 (some node) (fun n => { n with firstChild := fc }) with
          | none => none
          | some h3 =>
            match deserializeNode uninit fuel h3 rest2 parent with
            | none => none
            | some (h4, rest3, ns) =>
              match modify h4 (some node) (fun n => { n with nextSibling := ns }) with
              | none => none
              | some h5 => some (h5, rest3, some node)

/-- The files the program can reach: `none` for a path that cannot be opened for
reading, otherwise the text of the file. -/
abbrev Disk := String → Option String

/-- Function `saveToFile(filename)` (source lines 205-213).  `canOpen` tells whether
the output stream opens; the result is the text written to the file (if it opened)
and the text written to `cout`. -/
def saveToFile (fs : FileSystem) (canOpen : Bool) : Option (Option String × String) :=
  if !canOpen then some (none, "Error: Could not save to file.\n")
  else
    match serializeNode fs.heap fs.heap.length fs.root with
    | none => none
    | some text => some (some (String.mk text), "")

/-- Function `loadFromFile(filename)` (source lines 215-225). -/
def loadFromFile (uninit : Int × Int) (fs : FileSystem) (disk : Disk) (filename : String) :
    Option (FileSystem × String) :=
  match disk filename with
  | none => some (fs, "Error: Could not load from file.\n")
  | some text =>
    match deleteTree fs.heap.length fs.heap fs.root with
    | none => none
    | some h1 =>
      match deserializeNode uninit (text.data.length + 1) h1 text.data none with
      | none => none
      | some (h2, _, r) => some ({ heap := h2, root := r, current := r }, "")

/-! ## Specification vocabulary -/

/-- The child chain read off the store: `Chain h p l` holds when following `nextSibling`
from the pointer `p` visits exactly the cells `l` (address and object, in order) and then
reaches `nullptr`. -/
inductive Chain (h : Heap) : Ptr → List (Nat × Node) → Prop
  | nil : Chain h none []
  | cons {a : Nat} {n : Node} {l : List (Nat × Node)} :
      deref h (some a) = some n → Chain h n.nextSibling l → Chain h (some a) ((a, n) :: l)

/-- The first entry of a child chain that carries the given name. -/
def firstNamed (l : List (Nat × Node)) (name : String) : Option (Nat × Node) :=
  l.find? (fun e => decide (e.2.name = name))

/-- What `ls` writes for one child: its name, a slash for a directory, and a blank. -/
def lsEntry (n : Node) : String :=
  n.name ++ (if n.isDirectory then "/" else "") ++ " "

/-- What `ls` writes for a child chain, before the line end. -/
def lsText (l : List (Nat × Node)) : String :=
  String.join (l.map (fun e => lsEntry e.2))

/-- The store after a fresh object `nw` has been allocated and linked in front of the
children of the object `cur` at address `c`: what the last four statements of `mkdir`
and of `touch` leave behind. -/
def linked (h : Heap) (c : Nat) (cur nw : Node) : Heap :=
  h.set c (some { cur with firstChild := some h.length }) ++
    [some { nw with parent := some c, nextSibling := cur.firstChild }]

/-- A creation request issued to the engine: `mkdir(name)` or `touch(name, content)`,
together with the clock readings its constructor call takes. -/
inductive Create where
  | dir (name : String) (clk : Clock)
  | file (name content : String) (clk : Clock)
deriving DecidableEq, Repr

/-- The name a creation request asks for. -/
def Create.name : Create → String
  | .dir name _ => name
  | .file name _ _ => name

/-- Issuing one creation request. -/
def Create.run (fs : FileSystem) : Create → Option (FileSystem × String)
  | .dir name clk => mkdir fs name clk
  | .file name content clk => touch fs name content clk

/-- Issuing creation requests one after the other; the texts written are concatenated. -/
def runCreates : FileSystem → List Create → Option (FileSystem × String)
  | fs, [] => some (fs, "")
  | fs, op :: ops =>
    match op.run fs with
    | none => none
    | some (fs1, out1) =>
      match runCreates fs1 ops with
      | none => none
      | some (fs2, out2) => some (fs2, out1 ++ out2)

/-- How a created entry is expected to show in a listing: the name, followed by a slash
exactly for a directory, followed by the separating blank. -/
def Create.listing : Create → String
  | .dir name _ => name ++ "/" ++ " "
  | .file name _ _ => name ++ " "

/-- The calls `mkdir(X); cd(X)` issued `N` times in a row; `clk i` is the clock read by
the `i`-th `mkdir`.  The texts written are concatenated. -/
def mkdirCdTimes (X : String) (clk : Nat → Clock) : Nat → FileSystem → Option (FileSystem × String)
  | 0, fs => some (fs, "")
  | n + 1, fs =>
    match mkdirCdTimes X clk n fs with
    | none => none
    | some (fs1, out1) =>
      match mkdir fs1 X (clk n) with
      | none => none
      | some (fs2, out2) =>
        match cd fs2 X with
        | none => none
        | some (fs3, out3) => some (fs3, out1 ++ out2 ++ out3)

/-- The first five calls of `main` (source lines 240-245) on a freshly constructed
`FileSystem`; `c0` is the clock read when the root is constructed. -/
def mainSetup (c0 c1 c2 c3 : Clock) : Option (FileSystem × String) :=
  match mkdir (FileSystem.new c0) "home" c1 with
  | none => none
  | some (fs1, out1) =>
    match cd fs1 "home" with
    | none => none
    | some (fs2, out2) =>
      match mkdir fs2 "user" c2 with
      | none => none
      | some (fs3, out3) =>
        match cd fs3 "user" with
        | none => none
        | some (fs4, out4) =>
          match touch fs4 "notes.txt" "Hello World!" c3 with
          | none => none
          | some (fs5, out5) => some (fs5, out1 ++ out2 ++ out3 ++ out4 ++ out5)

/-- The state `main` is in after its first five calls. -/
def mainState (c0 c1 c2 c3 : Clock) : FileSystem :=
  { heap :=
      [some { name := "/", isDirectory := true, content := "", firstChild := some 1,
              nextSibling := none, parent := none,
              createdAt := c0.first, modifiedAt := c0.second },
       some { name := "home", isDirectory := true, content := "", firstChild := some 2,
              nextSibling := none, parent := some 0,
              createdAt := c1.first, modifiedAt := c1.second },
       some { name := "user", isDirectory := true, content := "", firstChild := some 3,
              nextSibling := none, parent := some 1,
              createdAt := c2.first, modifiedAt := c2.second },
       some { name := "notes.txt", isDirectory := false, content := "Hello World!",
              firstChild := none, nextSibling := none, parent := some 2,
              createdAt := c3.first, modifiedAt := c3.second }],
    root := some 0, current := some 2 }

/-- A small well-formed state used to exercise the theorems: the root directory with
the file `notes.txt` (created first), the directory `docs` and the directory `a/b`
(created last); the cursor is at the root. -/
def sampleFs : FileSystem :=
  { heap :=
      [some { name := "/", isDirectory := true, content := "", firstChild := some 3,
              nextSibling := none, parent := none, createdAt := 10, modifiedAt := 10 },
       some { name := "notes.txt", isDirectory := false, content := "hi",
              firstChild := none, nextSibling := none, parent := some 0,
              createdAt := 11, modifiedAt := 11 },
       some { name := "docs", isDirectory := true, content := "", firstChild := none,
              nextSibling := some 1, parent := some 0, createdAt := 12, modifiedAt := 12 },
       some { name := "a/b", isDirectory := true, content := "", firstChild := none,
              nextSibling := some 2, parent := some 0, createdAt := 13, modifiedAt := 13 }],
    root := some 0, current := some 0 }

/-- The object of `sampleFs` at address `a` (the root for an address out of range). -/
def sampleNode (a : Nat) : Node :=
  ((sampleFs.heap.getD a none).getD (Node.new "/" true ⟨0, 0⟩))

/-- The child chain of the root of `sampleFs`: `a/b`, `docs`, `notes.txt`. -/
def sampleChildren : List (Nat × Node) :=
  [(3, sampleNode 3), (2, sampleNode 2), (1, sampleNode 1)]

/-- The shape of the store after `k` rounds of `mkdir(X); cd(X)` on a fresh file system:
`k + 1` cells, the cursor at the last one, which has no children; cell `0` is the root
(no parent) and every other cell `i` is named `X` and has cell `i - 1` as parent. -/
def NestedAt (X : String) (k : Nat) (fs : FileSystem) : Prop :=
  fs.heap.length = k + 1 ∧ fs.current = some k ∧
    (∃ n, deref fs.heap (some k) = some n ∧ n.firstChild = none) ∧
    (∃ n, deref fs.heap (some 0) = some n ∧ n.parent = none) ∧
    ∀ i, i < k → ∃ n, deref fs.heap (some (i + 1)) = some n ∧ n.name = X ∧ n.parent = some i

/-- The text expected from `printPath` at depth `N` below the root: a slash followed by
`N` copies of the segment `X/`. -/
def nestedPath (X : String) (N : Nat) : String :=
  "/" ++ String.join (List.replicate N (X ++ "/"))

/-- The tree a pointer leads to, without addresses: for every node its name, kind and
content and the trees behind `firstChild` and `nextSibling`. -/
inductive Shape where
  | absent : Shape
  | node (name : String) (isDirectory : Bool) (content : String)
      (firstChild nextSibling : Shape) : Shape
deriving DecidableEq, Repr

/-- Reading the shape behind a pointer off the store (`none` when the walk meets a
dangling pointer or does not end). -/
def shapeOf (h : Heap) : Nat → Ptr → Option Shape
  | _, none => some Shape.absent
  | 0, some _ => none
  | fuel + 1, some a =>
    match deref h (some a) with
    | none => none
    | some n =>
      match shapeOf h fuel n.firstChild with
      | none => none
      | some kids =>
        match shapeOf h fuel n.nextSibling with
        | none => none
        | some sibs => some (Shape.node n.name n.isDirectory n.content kids sibs)

/-- A root directory with two children: the state after `mkdir("a"); mkdir("b")` on a
fresh file system (clock readings 100, 101, 102). -/
def twoChildrenFs : FileSystem :=
  { heap :=
      [some { name := "/", isDirectory := true, content := "", firstChild := some 2,
              nextSibling := none, parent := none, createdAt := 100, modifiedAt := 100 },
       some { name := "a", isDirectory := true, content := "", firstChild := none,
              nextSibling := none, parent := some 0, createdAt := 101, modifiedAt := 101 },
       some { name := "b", isDirectory := true, content := "", firstChild := none,
              nextSibling := some 1, parent := some 0, createdAt := 102, modifiedAt := 102 }],
    root := some 0, current := some 0 }

/-- The text `serializeNode` writes for the root of `twoChildrenFs`. -/
def twoChildrenText : List Char :=
  "/|1||100|100\nb|1||102|102\na|1||101|101\n".data

/-- The store `deserializeNode` builds from `twoChildrenText`, starting from an empty
store. -/
def twoChildrenDecoded : Heap :=
  [some { name := "/", isDirectory := true, content := "", firstChild := some 1,
          nextSibling := none, parent := none, createdAt := 100, modifiedAt := 0 },
   some { name := "b", isDirectory := true, content := "", firstChild := some 2,
          nextSibling := none, parent := some 0, createdAt := 102, modifiedAt := 0 },
   some { name := "a", isDirectory := true, content := "", firstChild := none,
          nextSibling := none, parent := some 1, createdAt := 101, modifiedAt := 0 }]

/-- The relation between the state `fs` before and the state `fs2` after a creation under
the cursor object `cur`: root and cursor are the same, the store has one more cell, the new
cell (at the address that was the size of the old store) holds `nw`, the cursor object
differs from `cur` only in that its `firstChild` is the new cell, and every other cell
is as it was. -/
def PrependedChild (fs fs2 : FileSystem) (cur nw : Node) : Prop :=
  fs2.root = fs.root ∧ fs2.current = fs.current ∧
    fs2.heap.length = fs.heap.length + 1 ∧
    deref fs2.heap fs.current = some { cur with firstChild := some fs.heap.length } ∧
    deref fs2.heap (some fs.heap.length) = some nw ∧
    ∀ a n, some a ≠ fs.current → deref fs.heap (some a) = some n →
      deref fs2.heap (some a) = some n

/-! ## Runs of calls -/

/-- A call on the public interface of the engine: `mkdir`, `touch`, `cd` or
`loadFromFile`, with the clock readings, the value of uninitialised locals and the files
on disk that the call meets. -/
inductive Op where
  | mkdir (name : String) (clk : Clock)
  | touch (name content : String) (clk : Clock)
  | cd (name : String)
  | load (uninit : Int × Int) (disk : Disk) (filename : String)

/-- Issuing one call. -/
def Op.run (fs : FileSystem) : Op → Option (FileSystem × String)
  | .mkdir name clk => FS.mkdir fs name clk
  | .touch name content clk => FS.touch fs name content clk
  | .cd name => FS.cd fs name
  | .load uninit disk filename => FS.loadFromFile uninit fs disk filename

/-- The calls other than `loadFromFile`. -/
def Op.isEdit : Op → Bool
  | .load _ _ _ => false
  | _ => true

/-- The name a creating call passes (`none` for `cd` and `loadFromFile`). -/
def Op.newName : Op → Option String
  | .mkdir name _ => some name
  | .touch name _ _ => some name
  | _ => none

/-- Issuing calls one after the other; the texts written are concatenated.  The result is
`none` as soon as one call has no defined result. -/
def runOps : FileSystem → List Op → Option (FileSystem × String)
  | fs, [] => some (fs, "")
  | fs, op :: ops =>
    match op.run fs with
    | none => none
    | some (fs1, out1) =>
      match runOps fs1 ops with
      | none => none
      | some (fs2, out2) => some (fs2, out1 ++ out2)

/-- What a call other than `loadFromFile` can do to the state: nothing (a reported failure,
or `cd("..")` at a node without parent), move the cursor to its parent, move the cursor to
a child directory found by name, or link a new object in front of the cursor's children. -/
inductive Effect (fs : FileSystem) : Op → FileSystem → Prop
  | same (op : Op) : Effect fs op fs
  | up (name : String) (cur : Node) (q : Nat) :
      deref fs.heap fs.current = some cur → cur.parent = some q →
      Effect fs (.cd name) { fs with current := some q }
  | down (name : String) (t : Nat) (target : Node) :
      findChild fs.heap fs.current name = some (some t) →
      deref fs.heap (some t) = some target → target.isDirectory = true →
      Effect fs (.cd name) { fs with current := some t }
  | madeDir (name : String) (clk : Clock) (c : Nat) (cur : Node) :
      fs.current = some c → deref fs.heap (some c) = some cur →
      findChild fs.heap (some c) name = some none →
      Effect fs (.mkdir name clk)
        { fs with heap := linked fs.heap c cur (Node.new name true clk) }
  | madeFile (name content : String) (clk : Clock) (c : Nat) (cur : Node) :
      fs.current = some c → deref fs.heap (some c) = some cur →
      findChild fs.heap (some c) name = some none →
      Effect fs (.touch name content clk)
        { fs with heap := (linked fs.heap c cur
            ({ Node.new name false clk with content := content })) }

/-! ## Invariants of the store -/

/-- The kinds of the nodes fit the tree: the cursor is a live directory, a file has no
children, and the parent of every node is a live directory. -/
def KindsFit (fs : FileSystem) : Prop :=
  (∃ n, deref fs.heap fs.current = some n ∧ n.isDirectory = true) ∧
    (∀ a n, deref fs.heap (some a) = some n → n.isDirectory = false → n.firstChild = none) ∧
    (∀ a n q, deref fs.heap (some a) = some n → n.parent = some q →
      ∃ m, deref fs.heap (some q) = some m ∧ m.isDirectory = true)

/-- Every live node carries a non-empty name. -/
def NamesNonEmpty (fs : FileSystem) : Prop :=
  ∀ a n, deref fs.heap (some a) = some n → n.name ≠ ""

/-- A sample run of `mkdir`, `touch` and `cd` calls (one of the `cd` calls names a file
and is refused). -/
def editRun : List Op :=
  [Op.mkdir "d" ⟨1, 1⟩, Op.touch "f" "text" ⟨2, 2⟩, Op.cd "f", Op.cd "d",
    Op.touch "g" "" ⟨3, 3⟩, Op.cd ".."]

/-- The state `editRun` leads to from the file system constructed at clock reading 0. -/
def editRunFs : FileSystem :=
  { heap :=
      [some { name := "/", isDirectory := true, content := "", firstChild := some 2,
              nextSibling := none, parent := none, createdAt := 0, modifiedAt := 0 },
       some { name := "d", isDirectory := true, content := "", firstChild := some 3,
              nextSibling := none, parent := some 0, createdAt := 1, modifiedAt := 1 },
       some { name := "f", isDirectory := false, content := "text", firstChild := none,
              nextSibling := some 1, parent := some 0, createdAt := 2, modifiedAt := 2 },
       some { name := "g", isDirectory := false, content := "", firstChild := none,
              nextSibling := none, parent := some 1, createdAt := 3, modifiedAt := 3 }],
    root := some 0, current := some 0 }

/-- The state after `mkdir("")` on the file system constructed at clock reading 0. -/
def emptyNameFs : FileSystem :=
  { heap :=
      [some { name := "/", isDirectory := true, content := "", firstChild := some 1,
              nextSibling := none, parent := none, createdAt := 0, modifiedAt := 0 },
       some { name := "", isDirectory := true, content := "", firstChild := none,
              nextSibling := none, parent := some 0, createdAt := 1, modifiedAt := 1 }],
    root := some 0, current := some 0 }

/-- Every live node has a child chain that ends, and no two entries of it carry the same
name. -/
def SiblingsDistinct (h : Heap) : Prop :=
  ∀ a n, deref h (some a) = some n →
    ∃ l, Chain h n.firstChild l ∧ (l.map (fun e => e.2.name)).Nodup

/-- Every child or sibling pointer stored in a live object is null or an address inside
the store. -/
def Bounded (h : Heap) : Prop :=
  ∀ a n, deref h (some a) = some n →
    (∀ y, n.firstChild = some y → y < h.length) ∧ (∀ y, n.nextSibling = some y → y < h.length)

/-- The parent links fit the child and sibling links, cell by cell: the live first child
of a node points back to that node, and the live next sibling of a node has the same
parent as the node. -/
def ParentLinks (h : Heap) : Prop :=
  ∀ a n, deref h (some a) = some n →
    (∀ y m, n.firstChild = some y → deref h (some y) = some m → m.parent = some a) ∧
    (∀ y m, n.nextSibling = some y → deref h (some y) = some m → m.parent = n.parent)

/-- The cell `a` is met when following `nextSibling` from the pointer `p`:
`SibReach h p a`.  With `p` the `firstChild` of a node this says that `a` is in the child
chain of that node, whether or not the chain ends. -/
inductive SibReach (h : Heap) : Ptr → Nat → Prop
  | head {a : Nat} {n : Node} : deref h (some a) = some n → SibReach h (some a) a
  | tail {a b : Nat} {n : Node} :
      deref h (some a) = some n → SibReach h n.nextSibling b → SibReach h (some a) b

/-- The store is well linked: pointers stay inside it, the parent links fit, and the root
pointer is null or leads to a live node without parent. -/
def WellLinked (fs : FileSystem) : Prop :=
  Bounded fs.heap ∧ ParentLinks fs.heap ∧
    (fs.root = none ∨ ∃ r, deref fs.heap fs.root = some r ∧ r.parent = none)

/-- The lines of a stream, as successive `std::getline` calls deliver them: the pieces
between line ends; a last piece without line end counts when it is not empty. -/
def linesOf : List Char → List (List Char)
  | [] => []
  | c :: cs =>
    if c = '\n' then [] :: linesOf cs
    else
      match linesOf cs with
      | [] => [[c]]
      | l :: ls => (c :: l) :: ls

/-- The parent-link invariant of a tree with the given root: the root has no parent, and
every cell met in the child chain of a live node `p` (followed from `firstChild` along
`nextSibling`, whether stated by reachability or by a chain that ends) has `p` as its
parent. -/
def ParentLinked (h : Heap) (root : Ptr) : Prop :=
  (∀ r, deref h root = some r → r.parent = none) ∧
    (∀ p cur a n, deref h (some p) = some cur → SibReach h cur.firstChild a →
      deref h (some a) = some n → n.parent = some p) ∧
    (∀ p cur l, deref h (some p) = some cur → Chain h cur.firstChild l →
      ∀ e ∈ l, e.2.parent = some p)

/-- A file that holds a root line followed by an empty line and one more line. -/
def sampleDisk : Disk := fun name =>
  if name = "tree.txt" then some "top|1||5|5\n\nside|0|hi|6|6\n" else
  if name = "empty.txt" then some "" else none

/-- A sample run with a successful load in the middle and a failing one at the end. -/
def loadRun : List Op :=
  [Op.mkdir "d" ⟨1, 1⟩, Op.load (7, 7) sampleDisk "tree.txt", Op.mkdir "e" ⟨2, 2⟩,
    Op.touch "f" "text" ⟨3, 3⟩, Op.cd "e", Op.load (7, 7) sampleDisk "missing.txt"]

/-- The state `loadRun` leads to from the file system constructed at clock reading 0:
the two cells of the first tree are deleted, the loaded root `top` has the sibling `side`
and the two children made after the load. -/
def loadRunFs : FileSystem :=
  { heap :=
      [none, none,
       some { name := "top", isDirectory := true, content := "", firstChild := some 5,
              nextSibling := some 3, parent := none, createdAt := 5, modifiedAt := 0 },
       some { name := "side", isDirectory := false, content := "hi", firstChild := none,
              nextSibling := none, parent := none, createdAt := 6, modifiedAt := 0 },
       some { name := "e", isDirectory := true, content := "", firstChild := none,
              nextSibling := none, parent := some 2, createdAt := 2, modifiedAt := 2 },
       some { name := "f", isDirectory := false, content := "text", firstChild := none,
              nextSibling := some 4, parent := some 2, createdAt := 3, modifiedAt := 3 }],
    root := some 2, current := some 4 }

/-- The state after loading an empty file into a fresh file system. -/
def emptyLoadFs : FileSystem :=
  { heap := [none], root := none, current := none }

/-- A file node with two different time stamps. -/
def stampedNode : Node :=
  { name := "notes.txt", isDirectory := false, content := "hi", firstChild := none,
    nextSibling := none, parent := none, createdAt := 1700000000, modifiedAt := 1700000005 }

/-! ## Trees in the store -/

/-- A finite tree as laid out in the store: at each node its address, the object there,
and the trees behind `firstChild` and `nextSibling`. -/
inductive HTree where
  | absent : HTree
  | node (a : Nat) (n : Node) (kids sibs : HTree) : HTree

/-- The tree behind a pointer: `IsTree h p t` holds when following `firstChild` and
`nextSibling` from `p` in the store `h` unfolds to exactly the finite tree `t`. -/
inductive IsTree (h : Heap) : Ptr → HTree → Prop
  | absent : IsTree h none HTree.absent
  | node {a : Nat} {n : Node} {k s : HTree} :
      deref h (some a) = some n → IsTree h n.firstChild k → IsTree h n.nextSibling s →
      IsTree h (some a) (HTree.node a n k s)

/-- The nodes of a tree in the order of the encoder: the node, then the tree behind
`firstChild`, then the tree behind `nextSibling`. -/
def HTree.preorder : HTree → List Node
  | .absent => []
  | .node _ n k s => n :: (k.preorder ++ s.preorder)

/-- The persisted text of a tree as the format describes it: nothing for an absent node,
otherwise the line of the node with its line end, then the text of the `firstChild` tree,
then the text of the `nextSibling` tree. -/
def HTree.encode : HTree → List Char
  | .absent => []
  | .node _ n k s => encodeLine n ++ ['\n'] ++ k.encode ++ s.encode

/-- The number of nodes on the longest path of links from the root of a tree. -/
def HTree.depth : HTree → Nat
  | .absent => 0
  | .node _ _ k s => max k.depth s.depth + 1

/-- The number of nodes of a tree. -/
def HTree.size : HTree → Nat
  | .absent => 0
  | .node _ _ k s => k.size + s.size + 1

/-- The addresses of the nodes of a tree. -/
def HTree.addrs : HTree → List Nat
  | .absent => []
  | .node a _ k s => a :: (k.addrs ++ s.addrs)

/-- The text made of the given lines, each followed by a line end. -/
def unlines (ls : List (List Char)) : List Char :=
  (ls.map (fun l => l ++ ['\n'])).flatten

/-- The cells of a single first-child chain built from the given lines, the first of them
at address `base` with the given parent: every cell holds the node decoded from its line,
has the cell before it as parent, the cell after it (if any) as `firstChild`, and no
`nextSibling`. -/
def chainCells (uninit : Int × Int) : Nat → Ptr → List (List Char) → Heap
  | _, _, [] => []
  | base, parent, l :: ls =>
    some { decodeLine uninit l parent with
            firstChild := if ls.isEmpty then none else some (base + 1) } ::
      chainCells uninit (base + 1) (some base) ls

/-- The objects of `twoChildrenFs` by address (the root for an address out of range). -/
def twoChildrenNode (a : Nat) : Node :=
  ((twoChildrenFs.heap.getD a none).getD (Node.new "/" true ⟨0, 0⟩))

/-- The tree behind the root of `twoChildrenFs`: the root, with the child `b` whose next
sibling is `a`. -/
def twoChildrenTree : HTree :=
  HTree.node 0 (twoChildrenNode 0)
    (HTree.node 2 (twoChildrenNode 2) HTree.absent
      (HTree.node 1 (twoChildrenNode 1) HTree.absent HTree.absent))
    HTree.absent

/-! # Theorems -/

/-! ## The free store -/

theorem deref_lt {h : Heap} {a : Nat} {n : Node} (hd : deref h (some a) = some n) :
    a < h.length := by
  by_contra hlt
  have : h[a]? = none := List.getElem?_eq_none (Nat.le_of_not_lt hlt)
  simp [deref, this] at hd

theorem deref_eq_some {h : Heap} {a : Nat} {n : Node} :
    deref h (some a) = some n ↔ h[a]? = some (some n) := by
  simp only [deref]
  rcases h[a]? with _ | _ | m <;> simp

theorem deref_append_of_some {h : Heap} {a : Nat} {n : Node} (t : Heap)
    (hd : deref h (some a) = some n) : deref (h ++ t) (some a) = some n := by
  have hlt := deref_lt hd
  rw [deref_eq_some] at hd ⊢
  rw [List.getElem?_append_left hlt]
  exact hd

theorem deref_append_new (h : Heap) (n : Node) :
    deref (h ++ [some n]) (some h.length) = some n := by
  rw [deref_eq_some]
  simp

theorem deref_set_self {h : Heap} {a : Nat} (n : Node) (hlt : a < h.length) :
    deref (h.set a (some n)) (some a) = some n := by
  rw [deref_eq_some]
  simp [hlt]

theorem deref_set_other {h : Heap} {a b : Nat} (x : Option Node) (hne : a ≠ b) :
    deref (h.set a x) (some b) = deref h (some b) := by
  simp [deref, List.getElem?_set_ne hne]

/-! ## Child chains -/

theorem Chain.functional {h : Heap} {p : Ptr} {l₁ l₂ : List (Nat × Node)}
    (c₁ : Chain h p l₁) (c₂ : Chain h p l₂) : l₁ = l₂ := by
  induction c₁ generalizing l₂ with
  | nil => cases c₂; rfl
  | cons hd _ ih =>
    cases c₂ with
    | cons hd2 c2 =>
      rw [hd] at hd2
      cases hd2
      rw [ih c2]

theorem Chain.deref_of_mem {h : Heap} {p : Ptr} {l : List (Nat × Node)} (c : Chain h p l) :
    ∀ e ∈ l, deref h (some e.1) = some e.2 := by
  induction c with
  | nil => intro e he; cases he
  | cons hd _ ih =>
    intro e he
    rcases List.mem_cons.1 he with rfl | he
    · exact hd
    · exact ih e he

theorem Chain.tail_of_mem {h : Heap} {p : Ptr} {l : List (Nat × Node)} (c : Chain h p l) :
    ∀ e ∈ l, ∃ l2, Chain h (some e.1) l2 ∧ l2.length ≤ l.length := by
  induction c with
  | nil => intro e he; cases he
  | cons hd c ih =>
    intro e he
    rcases List.mem_cons.1 he with rfl | he
    · exact ⟨_, Chain.cons hd c, le_refl _⟩
    · obtain ⟨l2, c2, hlen⟩ := ih e he
      exact ⟨l2, c2, by simp; omega⟩

theorem Chain.nodup {h : Heap} {p : Ptr} {l : List (Nat × Node)} (c : Chain h p l) :
    (l.map Prod.fst).Nodup := by
  induction c with
  | nil => simp
  | @cons a n l hd c ih =>
    rw [List.map_cons, List.nodup_cons]
    refine ⟨?_, ih⟩
    intro hmem
    obtain ⟨e, he, hea⟩ := List.mem_map.1 hmem
    obtain ⟨l2, c2, hlen⟩ := c.tail_of_mem e he
    rw [hea] at c2
    have := Chain.functional c2 (Chain.cons hd c)
    rw [this] at hlen
    simp at hlen

theorem Chain.length_le {h : Heap} {p : Ptr} {l : List (Nat × Node)} (c : Chain h p l) :
    l.length ≤ h.length := by
  have hsub : l.map Prod.fst ⊆ List.range h.length := by
    intro a ha
    obtain ⟨e, he, rfl⟩ := List.mem_map.1 ha
    exact List.mem_range.2 (deref_lt (c.deref_of_mem e he))
  have := (List.subperm_of_subset c.nodup hsub).length_le
  simpa using this

/-- A chain survives any change of the store that leaves its own cells as they are. -/
theorem Chain.frame {h h2 : Heap} {p : Ptr} {l : List (Nat × Node)} (c : Chain h p l)
    (hsame : ∀ e ∈ l, deref h2 (some e.1) = some e.2) : Chain h2 p l := by
  induction c with
  | nil => exact Chain.nil
  | cons hd c ih =>
    refine Chain.cons (hsame _ (List.mem_cons_self _ _)) (ih ?_)
    intro e he
    exact hsame e (List.mem_cons_of_mem _ he)

/-! ## The loops over a child chain -/

theorem join_cons (a : String) (l : List String) :
    String.join (a :: l) = a ++ String.join l := by
  apply String.ext
  simp [String.data_join]

theorem join_append (l₁ l₂ : List String) :
    String.join (l₁ ++ l₂) = String.join l₁ ++ String.join l₂ := by
  apply String.ext
  simp [String.data_join]

theorem findChildLoop_of_chain {h : Heap} {p : Ptr} {l : List (Nat × Node)} (name : String)
    (c : Chain h p l) : ∀ fuel, l.length ≤ fuel →
      findChildLoop h name fuel p = some ((firstNamed l name).map Prod.fst) := by
  induction c with
  | nil => intro fuel _; cases fuel <;> simp [findChildLoop, firstNamed]
  | @cons a n l hd c ih =>
    intro fuel hf
    cases fuel with
    | zero => simp at hf
    | succ fuel =>
      simp only [findChildLoop, hd]
      by_cases hn : n.name = name
      · simp [hn, firstNamed]
      · rw [if_neg hn, ih fuel (by simpa using hf)]
        simp [firstNamed, List.find?_cons, hn]

theorem lsLoop_of_chain {h : Heap} {p : Ptr} {l : List (Nat × Node)}
    (c : Chain h p l) : ∀ fuel, l.length ≤ fuel → lsLoop h fuel p = some (lsText l) := by
  induction c with
  | nil => intro fuel _; cases fuel <;> simp [lsLoop, lsText, String.join]
  | @cons a n l hd c ih =>
    intro fuel hf
    cases fuel with
    | zero => simp at hf
    | succ fuel =>
      simp only [lsLoop, hd, ih fuel (by simpa using hf)]
      simp [lsText, lsEntry, join_cons]

theorem findChild_of_chain {h : Heap} {p : Ptr} {cur : Node} {l : List (Nat × Node)}
    (name : String) (hcur : deref h p = some cur) (c : Chain h cur.firstChild l) :
    findChild h p name = some ((firstNamed l name).map Prod.fst) := by
  simp only [findChild, hcur]
  exact findChildLoop_of_chain name c _ c.length_le

/-! ## Creation -/

theorem link_steps {h : Heap} {c : Nat} {cur : Node} (nw : Node)
    (hcur : deref h (some c) = some cur) :
    (match modify (h ++ [some nw]) (some h.length) (fun n => { n with parent := some c }) with
      | none => none
      | some h2 =>
        match deref h2 (some c) with
        | none => none
        | some cur2 =>
          match modify h2 (some h.length) (fun n => { n with nextSibling := cur2.firstChild }) with
          | none => none
          | some h3 =>
            match modify h3 (some c) (fun n => { n with firstChild := some h.length }) with
            | none => none
            | some h4 => some h4) = some (linked h c cur nw) := by
  have hlt := deref_lt hcur
  have hne : h.length ≠ c := Nat.ne_of_gt hlt
  have e1 : modify (h ++ [some nw]) (some h.length) (fun n => { n with parent := some c }) =
      some (h ++ [some { nw with parent := some c }]) := by
    simp [modify, deref_append_new]
  rw [e1]
  simp only
  have e2 : deref (h ++ [some { nw with parent := some c }]) (some c) = some cur :=
    deref_append_of_some _ hcur
  rw [e2]
  simp only
  have e3 : modify (h ++ [some { nw with parent := some c }]) (some h.length)
      (fun n => { n with nextSibling := cur.firstChild }) =
      some (h ++ [some { nw with parent := some c, nextSibling := cur.firstChild }]) := by
    simp [modify, deref_append_new]
  rw [e3]
  simp only
  have e4 : modify (h ++ [some { nw with parent := some c, nextSibling := cur.firstChild }])
      (some c) (fun n => { n with firstChild := some h.length }) =
      some (linked h c cur nw) := by
    simp [modify, deref_append_of_some _ hcur, linked, List.set_append_left _ _ hlt]
  rw [e4]

theorem mkdir_of_absent {fs : FileSystem} {c : Nat} {cur : Node} (name : String) (clk : Clock)
    (hc : fs.current = some c) (hcur : deref fs.heap (some c) = some cur)
    (hfind : findChild fs.heap (some c) name = some none) :
    mkdir fs name clk =
      some ({ fs with heap := linked fs.heap c cur (Node.new name true clk) }, "") := by
  have hl := link_steps (Node.new name true clk) hcur
  simp only [mkdir, hc, hfind, alloc]
  revert hl
  generalize modify (fs.heap ++ [some (Node.new name true clk)]) (some fs.heap.length)
    (fun n => { n with parent := some c }) = m
  cases m with
  | none => intro hl; cases hl
  | some h2 =>
    simp only
    cases deref h2 (some c) with
    | none => intro hl; cases hl
    | some cur2 =>
      simp only
      cases modify h2 (some fs.heap.length)
          (fun n => { n with nextSibling := cur2.firstChild }) with
      | none => intro hl; cases hl
      | some h3 =>
        simp only
        cases modify h3 (some c) (fun n => { n with firstChild := some fs.heap.length }) with
        | none => intro hl; cases hl
        | some h4 => intro hl; cases hl; rfl

theorem touch_of_absent {fs : FileSystem} {c : Nat} {cur : Node} (name content : String)
    (clk : Clock) (hc : fs.current = some c) (hcur : deref fs.heap (some c) = some cur)
    (hfind : findChild fs.heap (some c) name = some none) :
    touch fs name content clk =
      some ({ fs with heap := (linked fs.heap c cur
                ({ Node.new name false clk with content := content })) }, "") := by
  have hl := link_steps { Node.new name false clk with content := content } hcur
  have e0 : modify (fs.heap ++ [some (Node.new name false clk)]) (some fs.heap.length)
      (fun n => { n with content := content }) =
      some (fs.heap ++ [some { Node.new name false clk with content := content }]) := by
    simp [modify, deref_append_new]
  have hlen : (fs.heap ++ [some (Node.new name false clk)]).length = fs.heap.length + 1 := by
    simp
  simp only [touch, hc, hfind, alloc, e0]
  revert hl
  generalize modify (fs.heap ++ [some { Node.new name false clk with content := content }])
    (some fs.heap.length) (fun n => { n with parent := some c }) = m
  cases m with
  | none => intro hl; cases hl
  | some h2 =>
    simp only
    cases deref h2 (some c) with
    | none => intro hl; cases hl
    | some cur2 =>
      simp only
      cases modify h2 (some fs.heap.length)
          (fun n => { n with nextSibling := cur2.firstChild }) with
      | none => intro hl; cases hl
      | some h3 =>
        simp only
        cases modify h3 (some c) (fun n => { n with firstChild := some fs.heap.length }) with
        | none => intro hl; cases hl
        | some h4 => intro hl; cases hl; rfl

/-! ### The store after a creation -/

theorem linked_length (h : Heap) (c : Nat) (cur nw : Node) :
    (linked h c cur nw).length = h.length + 1 := by
  simp [linked]

theorem deref_linked_cursor {h : Heap} {c : Nat} {cur : Node} (nw : Node)
    (hcur : deref h (some c) = some cur) :
    deref (linked h c cur nw) (some c) = some { cur with firstChild := some h.length } := by
  unfold linked
  exact deref_append_of_some _ (deref_set_self _ (deref_lt hcur))

theorem deref_linked_new (h : Heap) (c : Nat) (cur nw : Node) :
    deref (linked h c cur nw) (some h.length) =
      some { nw with parent := some c, nextSibling := cur.firstChild } := by
  have := deref_append_new (h.set c (some { cur with firstChild := some h.length }))
    { nw with parent := some c, nextSibling := cur.firstChild }
  simpa [linked] using this

theorem deref_linked_other {h : Heap} {c a : Nat} {n : Node} (cur nw : Node)
    (hne : a ≠ c) (hd : deref h (some a) = some n) :
    deref (linked h c cur nw) (some a) = some n := by
  unfold linked
  apply deref_append_of_some
  rw [deref_set_other _ (Ne.symm hne)]
  exact hd

/-- Linking a new first child in front of a child chain: the chain grows by the new
object at its head and is otherwise as before. -/
theorem chain_linked {h : Heap} {c : Nat} {cur : Node} {l : List (Nat × Node)} (nw : Node)
    (hch : Chain h cur.firstChild l)
    (hoff : ∀ e ∈ l, e.1 ≠ c) :
    Chain (linked h c cur nw) (some h.length)
      ((h.length, { nw with parent := some c, nextSibling := cur.firstChild }) :: l) := by
  refine Chain.cons (deref_linked_new h c cur nw) ?_
  apply hch.frame
  intro e he
  exact deref_linked_other cur nw (hoff e he) (hch.deref_of_mem e he)

/-! ## Sequences of creations -/

theorem firstNamed_eq_none {l : List (Nat × Node)} {name : String}
    (h : ∀ e ∈ l, e.2.name ≠ name) : firstNamed l name = none := by
  simp only [firstNamed, List.find?_eq_none]
  intro e he
  simpa using h e he

theorem lsText_append (l₁ l₂ : List (Nat × Node)) :
    lsText (l₁ ++ l₂) = lsText l₁ ++ lsText l₂ := by
  simp [lsText, join_append]

/-- One creation under a cursor whose children do not use the name: the request succeeds
silently, and the child chain of the cursor grows by one entry at its head. -/
theorem create_step {fs : FileSystem} {c : Nat} {cur : Node} {l : List (Nat × Node)}
    (op : Create) (hc : fs.current = some c) (hcur : deref fs.heap (some c) = some cur)
    (hch : Chain fs.heap cur.firstChild l) (hoff : ∀ e ∈ l, e.1 ≠ c)
    (hnew : ∀ e ∈ l, e.2.name ≠ op.name) :
    ∃ fs1 cur1 nw, op.run fs = some (fs1, "") ∧ fs1.current = some c ∧ fs1.root = fs.root ∧
      deref fs1.heap (some c) = some cur1 ∧
      Chain fs1.heap cur1.firstChild ((fs.heap.length, nw) :: l) ∧
      fs.heap.length ≠ c ∧ nw.name = op.name ∧ lsEntry nw = op.listing := by
  have hfind : findChild fs.heap (some c) op.name = some none := by
    rw [findChild_of_chain op.name hcur hch, firstNamed_eq_none hnew]
    rfl
  have hlt := deref_lt hcur
  cases op with
  | dir name clk =>
    refine ⟨_, _, _, mkdir_of_absent name clk hc hcur hfind, hc, rfl,
      deref_linked_cursor _ hcur, chain_linked _ hch hoff, Nat.ne_of_gt hlt, rfl, ?_⟩
    simp [lsEntry, Create.listing, Node.new]
  | file name content clk =>
    refine ⟨_, _, _, touch_of_absent name content clk hc hcur hfind, hc, rfl,
      deref_linked_cursor _ hcur, chain_linked _ hch hoff, Nat.ne_of_gt hlt, rfl, ?_⟩
    simp [lsEntry, Create.listing, Node.new]

theorem runCreates_chain (ops : List Create) :
    ∀ (fs : FileSystem) (c : Nat) (cur : Node) (l : List (Nat × Node)),
      fs.current = some c → deref fs.heap (some c) = some cur →
      Chain fs.heap cur.firstChild l → (∀ e ∈ l, e.1 ≠ c) →
      (∀ op ∈ ops, ∀ e ∈ l, e.2.name ≠ op.name) → (ops.map Create.name).Nodup →
      ∃ fs2 cur2 l2, runCreates fs ops = some (fs2, "") ∧ fs2.current = some c ∧
        fs2.root = fs.root ∧ deref fs2.heap (some c) = some cur2 ∧
        Chain fs2.heap cur2.firstChild (l2 ++ l) ∧
        lsText l2 = String.join (ops.reverse.map Create.listing) := by
  induction ops with
  | nil =>
    intro fs c cur l hc hcur hch _ _ _
    exact ⟨fs, cur, [], rfl, hc, rfl, hcur, by simpa using hch, by simp [lsText]⟩
  | cons op ops ih =>
    intro fs c cur l hc hcur hch hoff hnew hnd
    rw [List.map_cons, List.nodup_cons] at hnd
    obtain ⟨fs1, cur1, nw, hrun, hc1, hroot1, hcur1, hch1, hne, hname, hentry⟩ :=
      create_step op hc hcur hch hoff (hnew op (List.mem_cons_self _ _))
    have hoff1 : ∀ e ∈ (fs.heap.length, nw) :: l, e.1 ≠ c := by
      intro e he
      rcases List.mem_cons.1 he with rfl | he
      · exact hne
      · exact hoff e he
    have hnew1 : ∀ op2 ∈ ops, ∀ e ∈ (fs.heap.length, nw) :: l, e.2.name ≠ op2.name := by
      intro op2 hop2 e he
      rcases List.mem_cons.1 he with rfl | he
      · intro heq
        apply hnd.1
        rw [← hname, heq]
        exact List.mem_map_of_mem _ hop2
      · exact hnew op2 (List.mem_cons_of_mem _ hop2) e he
    obtain ⟨fs2, cur2, l2, hrun2, hc2, hroot2, hcur2, hch2, htext⟩ :=
      ih fs1 c cur1 _ hc1 hcur1 hch1 hoff1 hnew1 hnd.2
    refine ⟨fs2, cur2, l2 ++ [(fs.heap.length, nw)], ?_, hc2, hroot2.trans hroot1, hcur2,
      by simpa using hch2, ?_⟩
    · simp [runCreates, hrun, hrun2]
    · rw [lsText_append, htext]
      simp [lsText, join_cons, join_append, hentry]

/-! ## The sample state -/

theorem sample_cursor : deref sampleFs.heap sampleFs.current = some (sampleNode 0) := by
  decide

theorem sample_chain : Chain sampleFs.heap (sampleNode 0).firstChild sampleChildren :=
  Chain.cons (by decide) (Chain.cons (by decide) (Chain.cons (by decide) Chain.nil))

/-! ## C2: listing after a run of creations -/

/-- C2. Under a cursor node that has no children, any run of `mkdir`/`touch` calls with
pairwise distinct names succeeds without a message, and `ls` then writes exactly the
created names, each once, the most recently created first, with a slash after exactly
the directories (and a blank after every entry, then the line end). -/
theorem C2_ls_lists_creations_newest_first (fs : FileSystem) (cur : Node) (ops : List Create)
    (hcur : deref fs.heap fs.current = some cur) (hempty : cur.firstChild = none)
    (hdistinct : (ops.map Create.name).Nodup) :
    ∃ fs2, runCreates fs ops = some (fs2, "") ∧
      ls fs2 = some (fs2, String.join (ops.reverse.map Create.listing) ++ "\n") := by
  obtain ⟨c, hc⟩ : ∃ c, fs.current = some c := by
    cases hcc : fs.current with
    | none => rw [hcc] at hcur; cases hcur
    | some c => exact ⟨c, rfl⟩
  rw [hc] at hcur
  have hch : Chain fs.heap cur.firstChild [] := by rw [hempty]; exact Chain.nil
  obtain ⟨fs2, cur2, l2, hrun, hc2, _, hcur2, hch2, htext⟩ :=
    runCreates_chain ops fs c cur [] hc hcur hch (by simp) (by simp) hdistinct
  refine ⟨fs2, hrun, ?_⟩
  rw [List.append_nil] at hch2
  simp only [ls, hc2, hcur2, lsLoop_of_chain hch2 _ hch2.length_le, htext]

theorem C2_ls_lists_creations_newest_first_witness :
    deref (FileSystem.new ⟨5, 5⟩).heap (FileSystem.new ⟨5, 5⟩).current
        = some (Node.new "/" true ⟨5, 5⟩) ∧
      (Node.new "/" true ⟨5, 5⟩).firstChild = none ∧
      ([Create.dir "a" ⟨6, 6⟩, Create.file "b" "x" ⟨7, 7⟩, Create.dir "c" ⟨8, 9⟩].map
        Create.name).Nodup ∧
      ∃ fs2, runCreates (FileSystem.new ⟨5, 5⟩)
          [Create.dir "a" ⟨6, 6⟩, Create.file "b" "x" ⟨7, 7⟩, Create.dir "c" ⟨8, 9⟩]
            = some (fs2, "") ∧
        ls fs2 = some (fs2, String.join
          ([Create.dir "a" ⟨6, 6⟩, Create.file "b" "x" ⟨7, 7⟩, Create.dir "c" ⟨8, 9⟩].reverse.map
            Create.listing) ++ "\n") :=
  ⟨by decide, rfl, by decide,
    C2_ls_lists_creations_newest_first (FileSystem.new ⟨5, 5⟩) (Node.new "/" true ⟨5, 5⟩)
      [Create.dir "a" ⟨6, 6⟩, Create.file "b" "x" ⟨7, 7⟩, Create.dir "c" ⟨8, 9⟩]
      (by decide) rfl (by decide)⟩

/-! ## C3: duplicate names -/

/-- C3. When the name already names a direct child of the cursor (a file or a directory
alike), `mkdir` and `touch` each write their "already exists" message and return the
state exactly as it was: store, root and cursor are unchanged. -/
theorem C3_duplicate_name_leaves_state (fs : FileSystem) (cur : Node) (l : List (Nat × Node))
    (name content : String) (clk : Clock)
    (hcur : deref fs.heap fs.current = some cur) (hch : Chain fs.heap cur.firstChild l)
    (hdup : ∃ e ∈ l, e.2.name = name) :
    mkdir fs name clk = some (fs, "Directory already exists.\n") ∧
      touch fs name content clk = some (fs, "File already exists.\n") := by
  have hfind := findChild_of_chain name hcur hch
  obtain ⟨e, he, hname⟩ := hdup
  have hsome : (firstNamed l name).isSome := by
    simp only [firstNamed, List.find?_isSome]
    exact ⟨e, he, by simpa using hname⟩
  obtain ⟨x, hx⟩ := Option.isSome_iff_exists.1 hsome
  rw [hx] at hfind
  constructor
  · simp [mkdir, hfind]
  · simp [touch, hfind]

theorem C3_duplicate_name_leaves_state_witness :
    deref sampleFs.heap sampleFs.current = some (sampleNode 0) ∧
      Chain sampleFs.heap (sampleNode 0).firstChild sampleChildren ∧
      (∃ e ∈ sampleChildren, e.2.name = "notes.txt") ∧
      mkdir sampleFs "notes.txt" ⟨20, 20⟩ = some (sampleFs, "Directory already exists.\n") ∧
      touch sampleFs "notes.txt" "new" ⟨20, 20⟩ = some (sampleFs, "File already exists.\n") :=
  ⟨sample_cursor, sample_chain, ⟨(1, sampleNode 1), by decide, by decide⟩,
    C3_duplicate_name_leaves_state sampleFs (sampleNode 0) sampleChildren "notes.txt" "new"
      ⟨20, 20⟩ sample_cursor sample_chain ⟨(1, sampleNode 1), by decide, by decide⟩⟩

/-! ## C4: `cd("..")` -/

/-- C4. For a cursor at the root (the node without a parent) `cd("..")` returns the
state unchanged and writes nothing; for a cursor at a node with parent `q` it returns the
same store and root with the cursor at `q`, and writes nothing. -/
theorem C4_cd_dotdot (fs : FileSystem) (cur : Node)
    (hcur : deref fs.heap fs.current = some cur) :
    (cur.parent = none → cd fs ".." = some (fs, "")) ∧
      (∀ q, cur.parent = some q → cd fs ".." = some ({ fs with current := some q }, "")) := by
  constructor
  · intro hp
    simp [cd, hcur, hp]
  · intro q hp
    simp [cd, hcur, hp]

theorem C4_cd_dotdot_witness :
    deref sampleFs.heap sampleFs.current = some (sampleNode 0) ∧
      deref sampleFs.heap (some 2) = some (sampleNode 2) ∧
      cd sampleFs ".." = some (sampleFs, "") ∧
      cd { sampleFs with current := some 2 } ".." = some ({ sampleFs with current := some 0 }, "") :=
  ⟨sample_cursor, by decide,
    (C4_cd_dotdot sampleFs (sampleNode 0) sample_cursor).1 rfl,
    (C4_cd_dotdot { sampleFs with current := some 2 } (sampleNode 2) (by decide)).2 0 rfl⟩

/-! ## C7 and C9: `cd(name)` -/

/-- C7. For a name other than `..`: when no child of the cursor carries the name, or the
first child that carries it is a file, `cd` writes its failure message ("Directory not
found.", the same text in both cases) and returns the state exactly as it was. -/
theorem C7_cd_failure_leaves_state (fs : FileSystem) (cur : Node) (l : List (Nat × Node))
    (name : String) (hname : name ≠ "..")
    (hcur : deref fs.heap fs.current = some cur) (hch : Chain fs.heap cur.firstChild l)
    (hcase : firstNamed l name = none ∨
      ∃ e, firstNamed l name = some e ∧ e.2.isDirectory = false) :
    cd fs name = some (fs, "Directory not found.\n") := by
  have hfind := findChild_of_chain name hcur hch
  rcases hcase with hnone | ⟨e, hsome, hfile⟩
  · rw [hnone] at hfind
    simp [cd, hname, hfind]
  · rw [hsome] at hfind
    have hmem : e ∈ l := List.mem_of_find?_eq_some hsome
    have hd := hch.deref_of_mem e hmem
    simp [cd, hname, hfind, hd, hfile]

theorem C7_cd_failure_leaves_state_witness :
    "notes.txt" ≠ ".." ∧
      deref sampleFs.heap sampleFs.current = some (sampleNode 0) ∧
      Chain sampleFs.heap (sampleNode 0).firstChild sampleChildren ∧
      (firstNamed sampleChildren "notes.txt" = none ∨
        ∃ e, firstNamed sampleChildren "notes.txt" = some e ∧ e.2.isDirectory = false) ∧
      cd sampleFs "notes.txt" = some (sampleFs, "Directory not found.\n") :=
  ⟨by decide, sample_cursor, sample_chain, Or.inr ⟨(1, sampleNode 1), by decide, by decide⟩,
    C7_cd_failure_leaves_state sampleFs (sampleNode 0) sampleChildren "notes.txt" (by decide)
      sample_cursor sample_chain (Or.inr ⟨(1, sampleNode 1), by decide, by decide⟩)⟩

/-- C9. For a name other than `..` whose first bearer among the children of the cursor is
a directory at address `t`: `cd` writes nothing and returns the same store and root with
the cursor at `t`; the object there carries the given name, and, the children of the
cursor pointing back to it (the parent-link invariant), its parent is the old cursor.
The name is compared as a whole, so a name with a slash in it is one child name. -/
theorem C9_cd_enters_named_child (fs : FileSystem) (cur : Node) (l : List (Nat × Node))
    (name : String) (t : Nat) (n : Node) (hname : name ≠ "..")
    (hcur : deref fs.heap fs.current = some cur) (hch : Chain fs.heap cur.firstChild l)
    (hlink : ∀ e ∈ l, e.2.parent = fs.current)
    (hfirst : firstNamed l name = some (t, n)) (hdir : n.isDirectory = true) :
    cd fs name = some ({ fs with current := some t }, "") ∧
      deref fs.heap (some t) = some n ∧ n.name = name ∧ n.parent = fs.current := by
  have hfind := findChild_of_chain name hcur hch
  rw [hfirst] at hfind
  have hmem : (t, n) ∈ l := List.mem_of_find?_eq_some hfirst
  have hd : deref fs.heap (some t) = some n := hch.deref_of_mem _ hmem
  have hn : n.name = name := by
    have := List.find?_some hfirst
    simpa using this
  refine ⟨?_, hd, hn, hlink _ hmem⟩
  simp [cd, hname, hfind, hd, hdir]

theorem C9_cd_enters_named_child_witness :
    "a/b" ≠ ".." ∧
      deref sampleFs.heap sampleFs.current = some (sampleNode 0) ∧
      Chain sampleFs.heap (sampleNode 0).firstChild sampleChildren ∧
      (∀ e ∈ sampleChildren, e.2.parent = sampleFs.current) ∧
      firstNamed sampleChildren "a/b" = some (3, sampleNode 3) ∧
      (sampleNode 3).isDirectory = true ∧
      cd sampleFs "a/b" = some ({ sampleFs with current := some 3 }, "") ∧
      deref sampleFs.heap (some 3) = some (sampleNode 3) ∧ (sampleNode 3).name = "a/b" ∧
      (sampleNode 3).parent = sampleFs.current :=
  ⟨by decide, sample_cursor, sample_chain, by decide, by decide, by decide,
    C9_cd_enters_named_child sampleFs (sampleNode 0) sampleChildren "a/b" 3 (sampleNode 3)
      (by decide) sample_cursor sample_chain (by decide) (by decide) (by decide)⟩

/-! ## C8: loading from a path that cannot be opened -/

/-- C8. When the input stream for the path cannot be opened, `loadFromFile` writes its
error message and returns the state exactly as it was: same store (nothing deleted or
changed), same root, same cursor. -/
theorem C8_load_unopenable_leaves_state (uninit : Int × Int) (fs : FileSystem) (disk : Disk)
    (filename : String) (hclosed : disk filename = none) :
    loadFromFile uninit fs disk filename = some (fs, "Error: Could not load from file.\n") := by
  simp [loadFromFile, hclosed]

theorem C8_load_unopenable_leaves_state_witness :
    (fun _ => none : Disk) "missing.txt" = none ∧
      loadFromFile (0, 0) sampleFs (fun _ => none) "missing.txt"
        = some (sampleFs, "Error: Could not load from file.\n") :=
  ⟨rfl, C8_load_unopenable_leaves_state (0, 0) sampleFs (fun _ => none) "missing.txt" rfl⟩

/-! ## C10: `cat` -/

/-- C10. Whatever the name, `cat` returns the state unchanged.  It takes its failure
branch (writes "File not found." and no content) when no child of the cursor carries the
name and when the first child that carries it is a directory; when the first child that
carries it is a file it writes exactly the content of that file (and the line end). -/
theorem C10_cat_reads_first_named_file (fs : FileSystem) (cur : Node) (l : List (Nat × Node))
    (name : String) (hcur : deref fs.heap fs.current = some cur)
    (hch : Chain fs.heap cur.firstChild l) :
    (firstNamed l name = none → cat fs name = some (fs, "File not found.\n")) ∧
      (∀ e, firstNamed l name = some e → e.2.isDirectory = true →
        cat fs name = some (fs, "File not found.\n")) ∧
      (∀ e, firstNamed l name = some e → e.2.isDirectory = false →
        cat fs name = some (fs, e.2.content ++ "\n")) := by
  have hfind := findChild_of_chain name hcur hch
  refine ⟨?_, ?_, ?_⟩
  · intro hnone
    rw [hnone] at hfind
    simp [cat, hfind]
  · intro e hsome hdir
    rw [hsome] at hfind
    have hd := hch.deref_of_mem e (List.mem_of_find?_eq_some hsome)
    simp [cat, hfind, hd, hdir]
  · intro e hsome hfile
    rw [hsome] at hfind
    have hd := hch.deref_of_mem e (List.mem_of_find?_eq_some hsome)
    simp [cat, hfind, hd, hfile]

theorem C10_cat_reads_first_named_file_witness :
    deref sampleFs.heap sampleFs.current = some (sampleNode 0) ∧
      Chain sampleFs.heap (sampleNode 0).firstChild sampleChildren ∧
      cat sampleFs "nope" = some (sampleFs, "File not found.\n") ∧
      cat sampleFs "docs" = some (sampleFs, "File not found.\n") ∧
      cat sampleFs "notes.txt" = some (sampleFs, "hi\n") :=
  have key := C10_cat_reads_first_named_file sampleFs (sampleNode 0) sampleChildren
  ⟨sample_cursor, sample_chain,
    (key "nope" sample_cursor sample_chain).1 (by decide),
    (key "docs" sample_cursor sample_chain).2.1 (2, sampleNode 2) (by decide) (by decide),
    (key "notes.txt" sample_cursor sample_chain).2.2 (1, sampleNode 1) (by decide) (by decide)⟩

/-! ## C6: the demonstration scenario -/

/-- C6. On a fresh file system, after `mkdir("home"); cd("home"); mkdir("user");
cd("user"); touch("notes.txt", "Hello World!")` (none of which writes anything), `ls`
writes the one entry `notes.txt`, `cat("notes.txt")` writes exactly `Hello World!`, and
`pwd` writes exactly `/home/user/`; none of the three changes the state. -/
theorem C6_main_scenario (c0 c1 c2 c3 : Clock) :
    mainSetup c0 c1 c2 c3 = some (mainState c0 c1 c2 c3, "") ∧
      ls (mainState c0 c1 c2 c3) = some (mainState c0 c1 c2 c3, "notes.txt \n") ∧
      cat (mainState c0 c1 c2 c3) "notes.txt"
        = some (mainState c0 c1 c2 c3, "Hello World!\n") ∧
      pwd (mainState c0 c1 c2 c3) = some (mainState c0 c1 c2 c3, "/home/user/\n") := by
  refine ⟨?_, rfl, rfl, rfl⟩
  simp [mainSetup, mkdir, cd, touch, FileSystem.new, findChild, deref, findChildLoop, alloc,
    modify, Node.new, mainState]

/-! ## C5: the path after nested `mkdir`/`cd` -/

theorem findChildLoop_null (h : Heap) (name : String) (fuel : Nat) :
    findChildLoop h name fuel none = some none := by
  cases fuel <;> rfl

theorem nestedPath_zero (X : String) : nestedPath X 0 = "/" := by
  apply String.ext
  simp [nestedPath, String.data_join]

theorem nestedPath_succ (X : String) (N : Nat) :
    nestedPath X (N + 1) = nestedPath X N ++ X ++ "/" := by
  simp [nestedPath, List.replicate_succ', join_append, join_cons, String.join,
    String.append_assoc]

theorem nested_fresh (X : String) (clk : Clock) : NestedAt X 0 (FileSystem.new clk) := by
  refine ⟨rfl, rfl, ⟨Node.new "/" true clk, rfl, rfl⟩, ⟨Node.new "/" true clk, rfl, rfl⟩, ?_⟩
  intro i hi
  omega

theorem nested_printPath {X : String} {k : Nat} {fs : FileSystem} (hn : NestedAt X k fs) :
    ∀ i, i ≤ k → ∀ fuel, i < fuel →
      printPathAux fs.heap fuel (some i) = some (nestedPath X i) := by
  obtain ⟨_, _, _, ⟨r, hr, hrp⟩, hrest⟩ := hn
  intro i
  induction i with
  | zero =>
    intro _ fuel hf
    obtain ⟨fuel, rfl⟩ : ∃ f, fuel = f + 1 := ⟨fuel - 1, by omega⟩
    simp [printPathAux, hr, hrp, nestedPath_zero]
  | succ i ih =>
    intro hi fuel hf
    obtain ⟨fuel, rfl⟩ : ∃ f, fuel = f + 1 := ⟨fuel - 1, by omega⟩
    obtain ⟨n, hd, hname, hpar⟩ := hrest i (by omega)
    simp only [printPathAux, hd, hpar, ih (by omega) fuel (by omega)]
    rw [nestedPath_succ, hname]

theorem nested_step {X : String} {k : Nat} {fs : FileSystem} (clk : Clock)
    (hX : X ≠ "..") (hn : NestedAt X k fs) :
    ∃ fs2 fs3, mkdir fs X clk = some (fs2, "") ∧ cd fs2 X = some (fs3, "") ∧
      NestedAt X (k + 1) fs3 := by
  obtain ⟨hlen, hc, ⟨cur, hcur, hfc⟩, ⟨r, hr, hrp⟩, hrest⟩ := hn
  have hfind : findChild fs.heap (some k) X = some none := by
    simp [findChild, hcur, hfc, findChildLoop_null]
  have hmk := mkdir_of_absent X clk hc hcur hfind
  have hch0 : Chain fs.heap cur.firstChild [] := by rw [hfc]; exact Chain.nil
  have hcur2 := deref_linked_cursor (Node.new X true clk) hcur
  have hnew := deref_linked_new fs.heap k cur (Node.new X true clk)
  have hch := chain_linked (c := k) (Node.new X true clk) hch0 (by simp)
  have hfind2 := findChild_of_chain X hcur2 hch
  rw [hlen] at hnew hfind2
  have hfirst : firstNamed [(k + 1, ({ Node.new X true clk with
      parent := some k, nextSibling := cur.firstChild } : Node))] X =
      some (k + 1, { Node.new X true clk with
        parent := some k, nextSibling := cur.firstChild }) := by
    simp [firstNamed, Node.new]
  rw [hfirst] at hfind2
  refine ⟨{ fs with heap := linked fs.heap k cur (Node.new X true clk) },
    { heap := linked fs.heap k cur (Node.new X true clk), root := fs.root,
      current := some (k + 1) }, hmk, ?_, ?_⟩
  · simp only [Option.map] at hfind2
    simp only [cd, if_neg hX, hc, hfind2, hnew]
    simp [Node.new]
  · refine ⟨by simp [linked_length, hlen], rfl, ⟨_, hnew, rfl⟩, ?_, ?_⟩
    · by_cases hk : 0 = k
      · subst hk
        rw [hcur] at hr
        cases hr
        exact ⟨_, hcur2, hrp⟩
      · exact ⟨r, deref_linked_other cur _ hk hr, hrp⟩
    · intro i hi
      by_cases hik : i = k
      · subst hik
        exact ⟨_, hnew, rfl, rfl⟩
      · obtain ⟨n, hd, hname, hpar⟩ := hrest i (by omega)
        by_cases hik2 : i + 1 = k
        · subst hik2
          rw [hcur] at hd
          cases hd
          exact ⟨_, hcur2, hname, hpar⟩
        · exact ⟨n, deref_linked_other cur _ hik2 hd, hname, hpar⟩

theorem nested_run (X : String) (hX : X ≠ "..") (c0 : Clock) (clk : Nat → Clock) :
    ∀ N, ∃ fs, mkdirCdTimes X clk N (FileSystem.new c0) = some (fs, "") ∧ NestedAt X N fs := by
  intro N
  induction N with
  | zero => exact ⟨_, rfl, nested_fresh X c0⟩
  | succ N ih =>
    obtain ⟨fs, hrun, hn⟩ := ih
    obtain ⟨fs2, fs3, hmk, hcd, hn3⟩ := nested_step (clk N) hX hn
    refine ⟨fs3, ?_, hn3⟩
    simp [mkdirCdTimes, hrun, hmk, hcd]

/-- C5. For every name `X` other than `..` and every `N`, the calls `mkdir(X); cd(X)`
issued `N` times on a freshly constructed file system all succeed without a message, and
the path then written for the cursor by `printPath` is a slash followed by exactly `N`
copies of `X/`; `pwd` writes that path and the line end and leaves the state as it is. -/
theorem C5_path_after_nested_mkdir_cd (X : String) (hX : X ≠ "..") (N : Nat) (c0 : Clock)
    (clk : Nat → Clock) :
    ∃ fs, mkdirCdTimes X clk N (FileSystem.new c0) = some (fs, "") ∧
      printPath fs.heap fs.current = some ("/" ++ String.join (List.replicate N (X ++ "/"))) ∧
      pwd fs = some (fs, "/" ++ String.join (List.replicate N (X ++ "/")) ++ "\n") := by
  obtain ⟨fs, hrun, hn⟩ := nested_run X hX c0 clk N
  have hp : printPath fs.heap fs.current = some (nestedPath X N) := by
    have := nested_printPath hn N (le_refl N) fs.heap.length (by rw [hn.1]; omega)
    rw [printPath, hn.2.1]
    exact this
  refine ⟨fs, hrun, hp, ?_⟩
  simp only [pwd, hp]
  rfl

theorem C5_path_after_nested_mkdir_cd_witness :
    "x" ≠ ".." ∧
      ∃ fs, mkdirCdTimes "x" (fun i => ⟨i, i⟩) 3 (FileSystem.new ⟨0, 0⟩) = some (fs, "") ∧
        printPath fs.heap fs.current = some ("/" ++ String.join (List.replicate 3 ("x" ++ "/"))) ∧
        pwd fs = some (fs, "/" ++ String.join (List.replicate 3 ("x" ++ "/")) ++ "\n") :=
  ⟨by decide, C5_path_after_nested_mkdir_cd "x" (by decide) 3 ⟨0, 0⟩ (fun i => ⟨i, i⟩)⟩

/-! ## C1: the round trip through the codec -/

/-- C1 (fails on the code). For the root directory with the two children `b` and `a`
(the state after `mkdir("a"); mkdir("b")` on a fresh file system), `serializeNode` writes
three lines and no empty line for an absent child or sibling, and `deserializeNode`
rebuilds from them a tree in which `a` is the first child of `b` instead of its next
sibling: the decoded tree is not the original one. -/
theorem C1_roundtrip_turns_sibling_into_child :
    runCreates (FileSystem.new ⟨100, 100⟩) [Create.dir "a" ⟨101, 101⟩, Create.dir "b" ⟨102, 102⟩]
        = some (twoChildrenFs, "") ∧
      serializeNode twoChildrenFs.heap twoChildrenFs.heap.length twoChildrenFs.root
        = some twoChildrenText ∧
      deserializeNode (0, 0) (twoChildrenText.length + 1) [] twoChildrenText none
        = some (twoChildrenDecoded, [], some 0) ∧
      shapeOf twoChildrenFs.heap 3 twoChildrenFs.root
        = some (Shape.node "/" true "" (Shape.node "b" true "" Shape.absent
            (Shape.node "a" true "" Shape.absent Shape.absent)) Shape.absent) ∧
      shapeOf twoChildrenDecoded 3 (some 0)
        = some (Shape.node "/" true "" (Shape.node "b" true ""
            (Shape.node "a" true "" Shape.absent Shape.absent) Shape.absent) Shape.absent) ∧
      shapeOf twoChildrenDecoded 3 (some 0) ≠ shapeOf twoChildrenFs.heap 3 twoChildrenFs.root := by
  refine ⟨?_, ?_, ?_, ?_, ?_, ?_⟩
  · decide
  · decide
  · decide
  · decide
  · decide
  · decide

/-! ## C11: what a creation changes -/

theorem current_of_deref {fs : FileSystem} {cur : Node}
    (hcur : deref fs.heap fs.current = some cur) : ∃ c, fs.current = some c := by
  cases hcc : fs.current with
  | none => rw [hcc] at hcur; cases hcur
  | some c => exact ⟨c, rfl⟩

theorem prepended_linked {fs : FileSystem} {c : Nat} {cur : Node} (nw : Node)
    (hc : fs.current = some c) (hcur : deref fs.heap (some c) = some cur) :
    PrependedChild fs { fs with heap := linked fs.heap c cur nw } cur
      { nw with parent := some c, nextSibling := cur.firstChild } := by
  refine ⟨rfl, rfl, linked_length _ _ _ _, ?_, deref_linked_new _ _ _ _, ?_⟩
  · rw [hc]
    exact deref_linked_cursor nw hcur
  · intro a n hne hd
    rw [hc] at hne
    exact deref_linked_other cur nw (fun h => hne (by rw [h])) hd

/-- C11. When no child of the cursor carries the name, `mkdir(name)` (resp.
`touch(name, content)`) succeeds without a message and changes the state in exactly this
way: the store gets one new cell holding a node with the given name, `isDirectory = true`
and empty content (resp. `isDirectory = false` and the given content), no children,
`parent` the cursor and `nextSibling` the former `firstChild` of the cursor; the cursor
object gets the new cell as `firstChild` and keeps all its other fields; root and cursor
pointers are unchanged; every other cell is unchanged (so every old node keeps its name,
kind, content, children and `nextSibling`). -/
theorem C11_creation_prepends_new_child (fs : FileSystem) (cur : Node) (l : List (Nat × Node))
    (name content : String) (clk : Clock)
    (hcur : deref fs.heap fs.current = some cur) (hch : Chain fs.heap cur.firstChild l)
    (hnew : ∀ e ∈ l, e.2.name ≠ name) :
    (∃ fs2, mkdir fs name clk = some (fs2, "") ∧
      PrependedChild fs fs2 cur
        { name := name, isDirectory := true, content := "", firstChild := none,
          nextSibling := cur.firstChild, parent := fs.current,
          createdAt := clk.first, modifiedAt := clk.second }) ∧
    (∃ fs2, touch fs name content clk = some (fs2, "") ∧
      PrependedChild fs fs2 cur
        { name := name, isDirectory := false, content := content, firstChild := none,
          nextSibling := cur.firstChild, parent := fs.current,
          createdAt := clk.first, modifiedAt := clk.second }) := by
  obtain ⟨c, hc⟩ := current_of_deref hcur
  have hcur2 := hcur
  rw [hc] at hcur2
  have hfind : findChild fs.heap (some c) name = some none := by
    rw [findChild_of_chain name hcur2 hch, firstNamed_eq_none hnew]
    rfl
  constructor
  · refine ⟨_, mkdir_of_absent name clk hc hcur2 hfind, ?_⟩
    have := prepended_linked (Node.new name true clk) hc hcur2
    rw [← hc] at this
    exact this
  · refine ⟨_, touch_of_absent name content clk hc hcur2 hfind, ?_⟩
    have := prepended_linked ({ Node.new name false clk with content := content }) hc hcur2
    rw [← hc] at this
    exact this

theorem C11_creation_prepends_new_child_witness :
    deref sampleFs.heap sampleFs.current = some (sampleNode 0) ∧
      Chain sampleFs.heap (sampleNode 0).firstChild sampleChildren ∧
      (∀ e ∈ sampleChildren, e.2.name ≠ "new") ∧
      (∃ fs2, mkdir sampleFs "new" ⟨20, 21⟩ = some (fs2, "") ∧
        PrependedChild sampleFs fs2 (sampleNode 0)
          { name := "new", isDirectory := true, content := "", firstChild := none,
            nextSibling := (sampleNode 0).firstChild, parent := sampleFs.current,
            createdAt := 20, modifiedAt := 21 }) ∧
      (∃ fs2, touch sampleFs "new" "text" ⟨20, 21⟩ = some (fs2, "") ∧
        PrependedChild sampleFs fs2 (sampleNode 0)
          { name := "new", isDirectory := false, content := "text", firstChild := none,
            nextSibling := (sampleNode 0).firstChild, parent := sampleFs.current,
            createdAt := 20, modifiedAt := 21 }) :=
  ⟨sample_cursor, sample_chain, by decide,
    C11_creation_prepends_new_child sampleFs (sampleNode 0) sampleChildren "new" "text"
      ⟨20, 21⟩ sample_cursor sample_chain (by decide)⟩

/-! ## Runs of calls -/

theorem findChild_some_deref {h : Heap} {p : Ptr} {name : String} {r : Ptr}
    (hf : findChild h p name = some r) : ∃ cur, deref h p = some cur := by
  unfold findChild at hf
  cases hd : deref h p with
  | none => rw [hd] at hf; cases hf
  | some cur => exact ⟨cur, rfl⟩

theorem mkdir_effect {fs fs2 : FileSystem} {name : String} {clk : Clock} {out : String}
    (hrun : mkdir fs name clk = some (fs2, out)) : Effect fs (.mkdir name clk) fs2 := by
  cases hf : findChild fs.heap fs.current name with
  | none => simp [mkdir, hf] at hrun
  | some r =>
    cases r with
    | some t =>
      simp [mkdir, hf] at hrun
      rw [← hrun.1]
      exact Effect.same _
    | none =>
      obtain ⟨cur, hcur⟩ := findChild_some_deref hf
      obtain ⟨c, hc⟩ := current_of_deref hcur
      rw [hc] at hcur hf
      rw [mkdir_of_absent name clk hc hcur hf] at hrun
      cases hrun
      exact Effect.madeDir name clk c cur hc hcur hf

theorem touch_effect {fs fs2 : FileSystem} {name content : String} {clk : Clock}
    {out : String} (hrun : touch fs name content clk = some (fs2, out)) :
    Effect fs (.touch name content clk) fs2 := by
  cases hf : findChild fs.heap fs.current name with
  | none => simp [touch, hf] at hrun
  | some r =>
    cases r with
    | some t =>
      simp [touch, hf] at hrun
      rw [← hrun.1]
      exact Effect.same _
    | none =>
      obtain ⟨cur, hcur⟩ := findChild_some_deref hf
      obtain ⟨c, hc⟩ := current_of_deref hcur
      rw [hc] at hcur hf
      rw [touch_of_absent name content clk hc hcur hf] at hrun
      cases hrun
      exact Effect.madeFile name content clk c cur hc hcur hf

theorem cd_effect {fs fs2 : FileSystem} {name : String} {out : String}
    (hrun : cd fs name = some (fs2, out)) : Effect fs (.cd name) fs2 := by
  unfold cd at hrun
  split at hrun
  · cases hd : deref fs.heap fs.current with
    | none => simp [hd] at hrun
    | some cur =>
      cases hp : cur.parent with
      | none =>
        simp [hd, hp] at hrun
        rw [← hrun.1]
        exact Effect.same _
      | some q =>
        simp [hd, hp] at hrun
        rw [← hrun.1]
        exact Effect.up name cur q hd hp
  · cases hf : findChild fs.heap fs.current name with
    | none => simp [hf] at hrun
    | some r =>
      cases r with
      | none =>
        simp [hf] at hrun
        rw [← hrun.1]
        exact Effect.same _
      | some t =>
        cases hd : deref fs.heap (some t) with
        | none => simp [hf, hd] at hrun
        | some target =>
          cases hdir : target.isDirectory with
          | false =>
            simp [hf, hd, hdir] at hrun
            rw [← hrun.1]
            exact Effect.same _
          | true =>
            simp [hf, hd, hdir] at hrun
            rw [← hrun.1]
            exact Effect.down name t target hf hd hdir

theorem edit_effect {fs fs2 : FileSystem} {op : Op} {out : String}
    (hedit : op.isEdit = true) (hrun : op.run fs = some (fs2, out)) : Effect fs op fs2 := by
  cases op with
  | mkdir name clk => exact mkdir_effect hrun
  | touch name content clk => exact touch_effect hrun
  | cd name => exact cd_effect hrun
  | load uninit disk filename => cases hedit

/-- A property that holds of the start state and is kept by every allowed call holds
after every run of allowed calls. -/
theorem runOps_invariant (P : FileSystem → Prop) (allowed : Op → Prop)
    (hstep : ∀ fs op fs2 out, P fs → allowed op → op.run fs = some (fs2, out) → P fs2) :
    ∀ (ops : List Op) (fs fs2 : FileSystem) (out : String), P fs →
      (∀ op ∈ ops, allowed op) → runOps fs ops = some (fs2, out) → P fs2 := by
  intro ops
  induction ops with
  | nil =>
    intro fs fs2 out hP _ hrun
    simp [runOps] at hrun
    rw [← hrun.1]
    exact hP
  | cons op ops ih =>
    intro fs fs2 out hP hall hrun
    simp only [runOps] at hrun
    cases h1 : op.run fs with
    | none => simp [h1] at hrun
    | some r1 =>
      obtain ⟨fs1, out1⟩ := r1
      cases h2 : runOps fs1 ops with
      | none => simp [h1, h2] at hrun
      | some r2 =>
        obtain ⟨fs3, out3⟩ := r2
        simp [h1, h2] at hrun
        rw [← hrun.1]
        exact ih fs1 fs3 out3 (hstep fs op fs1 out1 hP (hall op (List.mem_cons_self _ _)) h1)
          (fun o ho => hall o (List.mem_cons_of_mem _ ho)) h2

/-! ## The cells after a creation -/

theorem deref_linked_cases {h : Heap} {c a : Nat} {cur n : Node} (nw : Node)
    (hcur : deref h (some c) = some cur)
    (hd : deref (linked h c cur nw) (some a) = some n) :
    (a = c ∧ n = { cur with firstChild := some h.length }) ∨
      (a = h.length ∧ n = { nw with parent := some c, nextSibling := cur.firstChild }) ∨
      (a ≠ c ∧ a ≠ h.length ∧ deref h (some a) = some n) := by
  have hlt := deref_lt hd
  rw [linked_length] at hlt
  by_cases hac : a = c
  · subst hac
    rw [deref_linked_cursor nw hcur] at hd
    exact Or.inl ⟨rfl, (Option.some.inj hd).symm⟩
  · by_cases hal : a = h.length
    · subst hal
      rw [deref_linked_new] at hd
      exact Or.inr (Or.inl ⟨rfl, (Option.some.inj hd).symm⟩)
    · refine Or.inr (Or.inr ⟨hac, hal, ?_⟩)
      have hlt2 : a < h.length := by omega
      cases hold : deref h (some a) with
      | some m =>
        rw [deref_linked_other cur nw hac hold] at hd
        exact hd
      | none =>
        exfalso
        have hcell : h[a]? = some none := by
          have hget : h[a]? = some h[a] := List.getElem?_eq_getElem hlt2
          cases hv : h[a] with
          | none => rw [hget, hv]
          | some m =>
            rw [hv] at hget
            rw [deref_eq_some.2 hget] at hold
            cases hold
        have hne : c ≠ a := fun e => hac e.symm
        have : (linked h c cur nw)[a]? = some none := by
          unfold linked
          rw [List.getElem?_append_left (by simpa using hlt2), List.getElem?_set_ne hne]
          exact hcell
        rw [deref_eq_some, this] at hd
        cases hd

/-- An old object as found after a creation: unchanged, except that the cursor
object has a new `firstChild`. -/
theorem deref_linked_old {h : Heap} {c a : Nat} {cur n : Node} (nw : Node)
    (hcur : deref h (some c) = some cur) (hd : deref h (some a) = some n) :
    ∃ m, deref (linked h c cur nw) (some a) = some m ∧ m.name = n.name ∧
      m.isDirectory = n.isDirectory ∧ m.content = n.content ∧
      m.nextSibling = n.nextSibling ∧ m.parent = n.parent ∧
      (a ≠ c → m = n) ∧ (a = c → m.firstChild = some h.length) := by
  by_cases hac : a = c
  · subst hac
    rw [hcur] at hd
    cases hd
    exact ⟨_, deref_linked_cursor nw hcur, rfl, rfl, rfl, rfl, rfl,
      fun hne => absurd rfl hne, fun _ => rfl⟩
  · exact ⟨n, deref_linked_other cur nw hac hd, rfl, rfl, rfl, rfl, rfl,
      fun _ => rfl, fun e => absurd e hac⟩

/-! ## C16: files are leaves -/

theorem kindsFit_fresh (c0 : Clock) : KindsFit (FileSystem.new c0) := by
  refine ⟨⟨Node.new "/" true c0, rfl, rfl⟩, ?_, ?_⟩
  · intro a n hd _
    have hlt := deref_lt hd
    have ha : a = 0 := by simpa [FileSystem.new] using hlt
    subst ha
    have : n = Node.new "/" true c0 := by
      have := hd
      simp [FileSystem.new, deref] at this
      exact this.symm
    rw [this]
    rfl
  · intro a n q hd hp
    have hlt := deref_lt hd
    have ha : a = 0 := by simpa [FileSystem.new] using hlt
    subst ha
    have : n = Node.new "/" true c0 := by
      have := hd
      simp [FileSystem.new, deref] at this
      exact this.symm
    rw [this] at hp
    cases hp

theorem kindsFit_linked {fs : FileSystem} {c : Nat} {cur : Node} (nw : Node)
    (hk : KindsFit fs) (hc : fs.current = some c) (hcur : deref fs.heap (some c) = some cur)
    (hleaf : nw.firstChild = none) :
    KindsFit { fs with heap := linked fs.heap c cur nw } := by
  obtain ⟨⟨n0, hn0, hdir0⟩, hfiles, hparents⟩ := hk
  rw [hc, hcur] at hn0
  cases hn0
  refine ⟨⟨{ cur with firstChild := some fs.heap.length },
    by rw [hc]; exact deref_linked_cursor nw hcur, hdir0⟩, ?_, ?_⟩
  · intro a n hd hfile
    rcases deref_linked_cases nw hcur hd with ⟨_, rfl⟩ | ⟨_, rfl⟩ | ⟨_, _, hold⟩
    · rw [hdir0] at hfile
      cases hfile
    · exact hleaf
    · exact hfiles a n hold hfile
  · intro a n q hd hp
    have key : ∀ q2 m, deref fs.heap (some q2) = some m → m.isDirectory = true →
        ∃ m2, deref (linked fs.heap c cur nw) (some q2) = some m2 ∧ m2.isDirectory = true := by
      intro q2 m hm hmd
      obtain ⟨m2, hm2, _, hdir2, _⟩ := deref_linked_old nw hcur hm
      exact ⟨m2, hm2, by rw [hdir2]; exact hmd⟩
    rcases deref_linked_cases nw hcur hd with ⟨_, rfl⟩ | ⟨_, rfl⟩ | ⟨_, _, hold⟩
    · obtain ⟨m, hm, hmd⟩ := hparents c cur q hcur hp
      exact key q m hm hmd
    · cases hp
      exact key c cur hcur hdir0
    · obtain ⟨m, hm, hmd⟩ := hparents a n q hold hp
      exact key q m hm hmd

theorem findChildLoop_found_deref {h : Heap} {name : String} {t : Nat} :
    ∀ (fuel : Nat) (p : Ptr), findChildLoop h name fuel p = some (some t) →
      ∃ n, deref h (some t) = some n ∧ n.name = name := by
  intro fuel
  induction fuel with
  | zero =>
    intro p hf
    cases p <;> simp [findChildLoop] at hf
  | succ fuel ih =>
    intro p hf
    cases p with
    | none => simp [findChildLoop] at hf
    | some a =>
      simp only [findChildLoop] at hf
      cases hd : deref h (some a) with
      | none => simp [hd] at hf
      | some n =>
        simp only [hd] at hf
        by_cases hn : n.name = name
        · simp [hn] at hf
          subst hf
          exact ⟨n, hd, hn⟩
        · rw [if_neg hn] at hf
          exact ih _ hf

theorem kindsFit_effect {fs fs2 : FileSystem} {op : Op} (hk : KindsFit fs)
    (heff : Effect fs op fs2) : KindsFit fs2 := by
  cases heff with
  | same => exact hk
  | up name cur q hcur hp =>
    obtain ⟨⟨n0, hn0, _⟩, hfiles, hparents⟩ := hk
    obtain ⟨c, hc⟩ := current_of_deref hcur
    rw [hc] at hcur
    obtain ⟨m, hm, hmd⟩ := hparents c cur q hcur hp
    exact ⟨⟨m, hm, hmd⟩, hfiles, hparents⟩
  | down name t target hf hd hdir =>
    exact ⟨⟨target, hd, hdir⟩, hk.2.1, hk.2.2⟩
  | madeDir name clk c cur hc hcur hf => exact kindsFit_linked _ hk hc hcur rfl
  | madeFile name content clk c cur hc hcur hf => exact kindsFit_linked _ hk hc hcur rfl

/-- C16. In every state reached from a freshly constructed file system by `mkdir`,
`touch` and `cd` calls, every node with `isDirectory = false` has no children, and the
cursor is a live directory. -/
theorem C16_files_are_leaves (c0 : Clock) (ops : List Op) (fs : FileSystem) (out : String)
    (hedit : ∀ op ∈ ops, op.isEdit = true)
    (hrun : runOps (FileSystem.new c0) ops = some (fs, out)) :
    (∀ a n, deref fs.heap (some a) = some n → n.isDirectory = false → n.firstChild = none) ∧
      ∃ n, deref fs.heap fs.current = some n ∧ n.isDirectory = true := by
  have hk : KindsFit fs :=
    runOps_invariant KindsFit (fun op => op.isEdit = true)
      (fun _ _ _ _ hP hall hstep => kindsFit_effect hP (edit_effect hall hstep))
      ops _ fs out (kindsFit_fresh c0) hedit hrun
  exact ⟨hk.2.1, hk.1⟩

theorem editRun_runs :
    runOps (FileSystem.new ⟨0, 0⟩) editRun = some (editRunFs, "Directory not found.\n") := by
  decide

theorem editRun_edits : ∀ op ∈ editRun, op.isEdit = true := by
  decide

theorem C16_files_are_leaves_witness :
    (∀ op ∈ editRun, op.isEdit = true) ∧
      runOps (FileSystem.new ⟨0, 0⟩) editRun = some (editRunFs, "Directory not found.\n") ∧
      (∀ a n, deref editRunFs.heap (some a) = some n → n.isDirectory = false →
        n.firstChild = none) ∧
      ∃ n, deref editRunFs.heap editRunFs.current = some n ∧ n.isDirectory = true :=
  ⟨editRun_edits, editRun_runs,
    C16_files_are_leaves ⟨0, 0⟩ editRun editRunFs _ editRun_edits editRun_runs⟩

/-! ## C17: names -/

theorem namesNonEmpty_linked {fs : FileSystem} {c : Nat} {cur : Node} (nw : Node)
    (hn : NamesNonEmpty fs) (hcur : deref fs.heap (some c) = some cur) (hname : nw.name ≠ "") :
    NamesNonEmpty { fs with heap := linked fs.heap c cur nw } := by
  intro a n hd
  rcases deref_linked_cases nw hcur hd with ⟨_, rfl⟩ | ⟨_, rfl⟩ | ⟨_, _, hold⟩
  · exact hn c cur hcur
  · exact hname
  · exact hn a n hold

theorem namesNonEmpty_effect {fs fs2 : FileSystem} {op : Op} (hn : NamesNonEmpty fs)
    (hname : op.newName ≠ some "") (heff : Effect fs op fs2) : NamesNonEmpty fs2 := by
  cases heff with
  | same => exact hn
  | up name cur q hcur hp => exact hn
  | down name t target hf hd hdir => exact hn
  | madeDir name clk c cur hc hcur hf =>
    exact namesNonEmpty_linked _ hn hcur (fun h => hname (by simp [Op.newName, Node.new] at h ⊢; exact h))
  | madeFile name content clk c cur hc hcur hf =>
    exact namesNonEmpty_linked _ hn hcur (fun h => hname (by simp [Op.newName, Node.new] at h ⊢; exact h))

/-- C17 as stated fails: `mkdir("")` on a fresh file system succeeds and leaves a node
whose name is the empty string. -/
theorem C17_empty_name_counterexample :
    (∀ op ∈ [Op.mkdir "" ⟨1, 1⟩], op.isEdit = true) ∧
      runOps (FileSystem.new ⟨0, 0⟩) [Op.mkdir "" ⟨1, 1⟩] = some (emptyNameFs, "") ∧
      (deref emptyNameFs.heap (some 1)).map Node.name = some "" ∧
      ¬ NamesNonEmpty emptyNameFs := by
  refine ⟨by decide, by decide, by decide, ?_⟩
  intro h
  exact h 1 { name := "", isDirectory := true, content := "", firstChild := none,
              nextSibling := none, parent := some 0, createdAt := 1, modifiedAt := 1 }
    (by decide) rfl

/-- C17 (amended). In every state reached from a freshly constructed file system by
`mkdir` and `touch` calls whose name argument is not the empty string, and `cd` calls,
every node's name is a non-empty string. -/
theorem C17_names_nonempty_for_nonempty_arguments (c0 : Clock) (ops : List Op)
    (fs : FileSystem) (out : String) (hedit : ∀ op ∈ ops, op.isEdit = true)
    (hargs : ∀ op ∈ ops, op.newName ≠ some "")
    (hrun : runOps (FileSystem.new c0) ops = some (fs, out)) :
    ∀ a n, deref fs.heap (some a) = some n → n.name ≠ "" := by
  have hfresh : NamesNonEmpty (FileSystem.new c0) := by
    intro a n hd
    have hlt := deref_lt hd
    have ha : a = 0 := by simpa [FileSystem.new] using hlt
    subst ha
    have : n = Node.new "/" true c0 := by
      have := hd
      simp [FileSystem.new, deref] at this
      exact this.symm
    rw [this]
    simp [Node.new]
  exact runOps_invariant NamesNonEmpty (fun op => op.isEdit = true ∧ op.newName ≠ some "")
    (fun _ _ _ _ hP hall hstep => namesNonEmpty_effect hP hall.2 (edit_effect hall.1 hstep))
    ops _ fs out hfresh (fun op hop => ⟨hedit op hop, hargs op hop⟩) hrun

theorem C17_names_nonempty_for_nonempty_arguments_witness :
    (∀ op ∈ editRun, op.isEdit = true) ∧ (∀ op ∈ editRun, op.newName ≠ some "") ∧
      runOps (FileSystem.new ⟨0, 0⟩) editRun = some (editRunFs, "Directory not found.\n") ∧
      ∀ a n, deref editRunFs.heap (some a) = some n → n.name ≠ "" :=
  ⟨editRun_edits, by decide, editRun_runs,
    C17_names_nonempty_for_nonempty_arguments ⟨0, 0⟩ editRun editRunFs _ editRun_edits
      (by decide) editRun_runs⟩

/-! ## C15: sibling names -/

/-- A chain of the old store is still a chain after a creation, with the same names. -/
theorem chain_linked_old {h : Heap} {c : Nat} {cur : Node} (nw : Node)
    (hcur : deref h (some c) = some cur) {p : Ptr} {l : List (Nat × Node)}
    (hch : Chain h p l) :
    ∃ l2, Chain (linked h c cur nw) p l2 ∧
      l2.map (fun e => e.2.name) = l.map (fun e => e.2.name) := by
  induction hch with
  | nil => exact ⟨[], Chain.nil, rfl⟩
  | @cons a n l hd _ ih =>
    obtain ⟨l2, hch2, hnames⟩ := ih
    obtain ⟨m, hm, hname, _, _, hnext, _⟩ := deref_linked_old nw hcur hd
    refine ⟨(a, m) :: l2, Chain.cons hm (by rw [hnext]; exact hch2), ?_⟩
    simp [hname, hnames]

theorem firstNamed_none_names {l : List (Nat × Node)} {name : String}
    (h : firstNamed l name = none) : name ∉ l.map (fun e => e.2.name) := by
  intro hmem
  obtain ⟨e, he, hname⟩ := List.mem_map.1 hmem
  have := List.find?_eq_none.1 h e he
  simp at this
  exact this hname

theorem siblingsDistinct_linked {h : Heap} {c : Nat} {cur : Node} (nw : Node)
    (hs : SiblingsDistinct h) (hcur : deref h (some c) = some cur)
    (hfind : findChild h (some c) nw.name = some none) (hleaf : nw.firstChild = none) :
    SiblingsDistinct (linked h c cur nw) := by
  intro a n hd
  rcases deref_linked_cases nw hcur hd with ⟨_, rfl⟩ | ⟨_, rfl⟩ | ⟨_, _, hold⟩
  · obtain ⟨l, hch, hnd⟩ := hs c cur hcur
    obtain ⟨l2, hch2, hnames⟩ := chain_linked_old nw hcur hch
    have hfn : firstNamed l nw.name = none := by
      have := findChild_of_chain nw.name hcur hch
      rw [hfind] at this
      cases hfl : firstNamed l nw.name with
      | none => rfl
      | some e => rw [hfl] at this; cases this
    refine ⟨(h.length, { nw with parent := some c, nextSibling := cur.firstChild }) :: l2,
      Chain.cons (deref_linked_new h c cur nw) hch2, ?_⟩
    rw [List.map_cons, List.nodup_cons, hnames]
    exact ⟨firstNamed_none_names hfn, hnd⟩
  · exact ⟨[], by rw [show ({ nw with parent := some c, nextSibling := cur.firstChild } : Node).firstChild = none from hleaf]; exact Chain.nil, by simp⟩
  · obtain ⟨l, hch, hnd⟩ := hs a n hold
    obtain ⟨l2, hch2, hnames⟩ := chain_linked_old nw hcur hch
    exact ⟨l2, hch2, by rw [hnames]; exact hnd⟩

theorem siblingsDistinct_effect {fs fs2 : FileSystem} {op : Op}
    (hs : SiblingsDistinct fs.heap) (heff : Effect fs op fs2) : SiblingsDistinct fs2.heap := by
  cases heff with
  | same => exact hs
  | up name cur q hcur hp => exact hs
  | down name t target hf hd hdir => exact hs
  | madeDir name clk c cur hc hcur hf => exact siblingsDistinct_linked _ hs hcur hf rfl
  | madeFile name content clk c cur hc hcur hf => exact siblingsDistinct_linked _ hs hcur hf rfl

theorem siblingsDistinct_fresh (c0 : Clock) : SiblingsDistinct (FileSystem.new c0).heap := by
  intro a n hd
  have hlt := deref_lt hd
  have ha : a = 0 := by simpa [FileSystem.new] using hlt
  subst ha
  have : n = Node.new "/" true c0 := by
    have := hd
    simp [FileSystem.new, deref] at this
    exact this.symm
  rw [this]
  exact ⟨[], Chain.nil, by simp⟩

/-- C15. In every state reached from a freshly constructed file system by `mkdir`,
`touch` and `cd` calls (any names, any contents), every live node has a child chain that
ends, and no two children in the chain of one node carry the same name. -/
theorem C15_sibling_names_are_distinct (c0 : Clock) (ops : List Op) (fs : FileSystem)
    (out : String) (hedit : ∀ op ∈ ops, op.isEdit = true)
    (hrun : runOps (FileSystem.new c0) ops = some (fs, out)) :
    ∀ a n, deref fs.heap (some a) = some n →
      (∃ l, Chain fs.heap n.firstChild l) ∧
      ∀ l, Chain fs.heap n.firstChild l → (l.map (fun e => e.2.name)).Nodup := by
  have hs : SiblingsDistinct fs.heap :=
    runOps_invariant (fun s => SiblingsDistinct s.heap) (fun op => op.isEdit = true)
      (fun _ _ _ _ hP hall hstep => siblingsDistinct_effect hP (edit_effect hall hstep))
      ops _ fs out (siblingsDistinct_fresh c0) hedit hrun
  intro a n hd
  obtain ⟨l, hch, hnd⟩ := hs a n hd
  refine ⟨⟨l, hch⟩, ?_⟩
  intro l2 hch2
  rw [Chain.functional hch2 hch]
  exact hnd

theorem C15_sibling_names_are_distinct_witness :
    (∀ op ∈ editRun, op.isEdit = true) ∧
      runOps (FileSystem.new ⟨0, 0⟩) editRun = some (editRunFs, "Directory not found.\n") ∧
      ∀ a n, deref editRunFs.heap (some a) = some n →
        (∃ l, Chain editRunFs.heap n.firstChild l) ∧
        ∀ l, Chain editRunFs.heap n.firstChild l → (l.map (fun e => e.2.name)).Nodup :=
  ⟨editRun_edits, editRun_runs,
    C15_sibling_names_are_distinct ⟨0, 0⟩ editRun editRunFs _ editRun_edits editRun_runs⟩

/-! ## C13: parent links -/

theorem deref_append_old {h : Heap} {a : Nat} (t : Heap) (hlt : a < h.length) :
    deref (h ++ t) (some a) = deref h (some a) := by
  simp [deref, List.getElem?_append_left hlt]

theorem deref_append_cases {h : Heap} {a : Nat} {n nw : Node}
    (hd : deref (h ++ [some nw]) (some a) = some n) :
    (a < h.length ∧ deref h (some a) = some n) ∨ (a = h.length ∧ n = nw) := by
  have hlt := deref_lt hd
  simp at hlt
  by_cases ha : a < h.length
  · rw [deref_append_old _ ha] at hd
    exact Or.inl ⟨ha, hd⟩
  · have : a = h.length := by omega
    subst this
    rw [deref_append_new] at hd
    exact Or.inr ⟨rfl, (Option.some.inj hd).symm⟩

theorem deref_set_cases {h : Heap} {a b : Nat} {n : Node} {x : Option Node}
    (hd : deref (h.set a x) (some b) = some n) :
    (b = a ∧ x = some n) ∨ (b ≠ a ∧ deref h (some b) = some n) := by
  by_cases hb : b = a
  · subst hb
    have hlt := deref_lt hd
    simp at hlt
    rw [deref_eq_some] at hd
    simp [hlt] at hd
    exact Or.inl ⟨rfl, hd⟩
  · rw [deref_set_other _ (fun e => hb e.symm)] at hd
    exact Or.inr ⟨hb, hd⟩

theorem bounded_append {h : Heap} {nw : Node} (hb : Bounded h)
    (h1 : ∀ y, nw.firstChild = some y → y < h.length + 1)
    (h2 : ∀ y, nw.nextSibling = some y → y < h.length + 1) : Bounded (h ++ [some nw]) := by
  intro a n hd
  rcases deref_append_cases hd with ⟨_, hold⟩ | ⟨_, rfl⟩
  · obtain ⟨hf, hs⟩ := hb a n hold
    exact ⟨fun y hy => by have := hf y hy; simp; omega,
      fun y hy => by have := hs y hy; simp; omega⟩
  · exact ⟨fun y hy => by simpa using h1 y hy, fun y hy => by simpa using h2 y hy⟩

theorem bounded_set {h : Heap} {a : Nat} {nw : Node} (hb : Bounded h)
    (h1 : ∀ y, nw.firstChild = some y → y < h.length)
    (h2 : ∀ y, nw.nextSibling = some y → y < h.length) : Bounded (h.set a (some nw)) := by
  intro b n hd
  rcases deref_set_cases hd with ⟨_, hx⟩ | ⟨_, hold⟩
  · cases hx
    exact ⟨fun y hy => by simpa using h1 y hy, fun y hy => by simpa using h2 y hy⟩
  · obtain ⟨hf, hs⟩ := hb b n hold
    exact ⟨fun y hy => by simpa using hf y hy, fun y hy => by simpa using hs y hy⟩

/-- Appending a cell keeps the parent links, when the new object meets its own
obligations and no old object points to the new cell. -/
theorem parentLinks_append {h : Heap} {nw : Node} (hb : Bounded h) (hp : ParentLinks h)
    (h1 : ∀ y m, nw.firstChild = some y → deref (h ++ [some nw]) (some y) = some m →
      m.parent = some h.length)
    (h2 : ∀ y m, nw.nextSibling = some y → deref (h ++ [some nw]) (some y) = some m →
      m.parent = nw.parent) : ParentLinks (h ++ [some nw]) := by
  intro a n hd
  rcases deref_append_cases hd with ⟨_, hold⟩ | ⟨rfl, rfl⟩
  · obtain ⟨hbf, hbs⟩ := hb a n hold
    obtain ⟨hf, hs⟩ := hp a n hold
    constructor
    · intro y m hy hm
      rw [deref_append_old _ (hbf y hy)] at hm
      exact hf y m hy hm
    · intro y m hy hm
      rw [deref_append_old _ (hbs y hy)] at hm
      exact hs y m hy hm
  · exact ⟨h1, h2⟩

/-- Overwriting a live object by one with the same parent keeps the parent links, when the
new object meets its own obligations. -/
theorem parentLinks_set {h : Heap} {a : Nat} {n0 n1 : Node} (hp : ParentLinks h)
    (h0 : deref h (some a) = some n0) (hpar : n1.parent = n0.parent)
    (h1 : ∀ y m, n1.firstChild = some y → deref (h.set a (some n1)) (some y) = some m →
      m.parent = some a)
    (h2 : ∀ y m, n1.nextSibling = some y → deref (h.set a (some n1)) (some y) = some m →
      m.parent = n1.parent) : ParentLinks (h.set a (some n1)) := by
  intro b n hd
  rcases deref_set_cases hd with ⟨rfl, hx⟩ | ⟨_, hold⟩
  · cases hx
    exact ⟨h1, h2⟩
  · obtain ⟨hf, hs⟩ := hp b n hold
    constructor
    · intro y m hy hm
      rcases deref_set_cases hm with ⟨rfl, hx⟩ | ⟨_, hmold⟩
      · cases hx
        rw [hpar]
        exact hf y n0 hy h0
      · exact hf y m hy hmold
    · intro y m hy hm
      rcases deref_set_cases hm with ⟨rfl, hx⟩ | ⟨_, hmold⟩
      · cases hx
        rw [hpar]
        exact hs y n0 hy h0
      · exact hs y m hy hmold

theorem linked_eq_set {h : Heap} {c : Nat} {cur : Node} (nw : Node)
    (hcur : deref h (some c) = some cur) :
    linked h c cur nw =
      (h ++ [some { nw with parent := some c, nextSibling := cur.firstChild }]).set c
        (some { cur with firstChild := some h.length }) := by
  unfold linked
  rw [List.set_append_left _ _ (deref_lt hcur)]

theorem bounded_linked {h : Heap} {c : Nat} {cur : Node} (nw : Node) (hb : Bounded h)
    (hcur : deref h (some c) = some cur) (hleaf : nw.firstChild = none) :
    Bounded (linked h c cur nw) := by
  obtain ⟨hbf, hbs⟩ := hb c cur hcur
  rw [linked_eq_set nw hcur]
  apply bounded_set
  · apply bounded_append hb
    · intro y hy
      rw [show ({ nw with parent := some c, nextSibling := cur.firstChild } : Node).firstChild
        = nw.firstChild from rfl, hleaf] at hy
      cases hy
    · intro y hy
      have := hbf y hy
      omega
  · intro y hy
    cases hy
    simp
  · intro y hy
    have := hbs y hy
    simp
    omega

theorem parentLinks_linked {h : Heap} {c : Nat} {cur : Node} (nw : Node) (hb : Bounded h)
    (hp : ParentLinks h) (hcur : deref h (some c) = some cur) (hleaf : nw.firstChild = none) :
    ParentLinks (linked h c cur nw) := by
  obtain ⟨hbf, hbs⟩ := hb c cur hcur
  obtain ⟨hpf, hps⟩ := hp c cur hcur
  have hlt := deref_lt hcur
  have hpa : ParentLinks
      (h ++ [some { nw with parent := some c, nextSibling := cur.firstChild }]) := by
    apply parentLinks_append hb hp
    · intro y m hy _
      rw [show ({ nw with parent := some c, nextSibling := cur.firstChild } : Node).firstChild
        = nw.firstChild from rfl, hleaf] at hy
      cases hy
    · intro y m hy hm
      rw [deref_append_old _ (hbf y hy)] at hm
      exact hpf y m hy hm
  rw [linked_eq_set nw hcur]
  refine @parentLinks_set _ c cur { cur with firstChild := some h.length } hpa
    (deref_append_of_some _ hcur) rfl ?_ ?_
  · intro y m hy hm
    cases hy
    rw [deref_set_other _ (Nat.ne_of_lt hlt), deref_append_new] at hm
    cases hm
    rfl
  · intro y m hy hm
    rcases deref_set_cases hm with ⟨_, hx⟩ | ⟨_, hold⟩
    · cases hx
      rfl
    · rw [deref_append_old _ (hbs y hy)] at hold
      exact hps y m hy hold

theorem wellLinked_fresh (c0 : Clock) : WellLinked (FileSystem.new c0) := by
  have hcell : ∀ a n, deref (FileSystem.new c0).heap (some a) = some n →
      n = Node.new "/" true c0 := by
    intro a n hd
    have hlt := deref_lt hd
    have ha : a = 0 := by simpa [FileSystem.new] using hlt
    subst ha
    have := hd
    simp [FileSystem.new, deref] at this
    exact this.symm
  refine ⟨?_, ?_, Or.inr ⟨Node.new "/" true c0, rfl, rfl⟩⟩
  · intro a n hd
    rw [hcell a n hd]
    exact ⟨fun y hy => (by cases hy), fun y hy => (by cases hy)⟩
  · intro a n hd
    rw [hcell a n hd]
    exact ⟨fun y m hy _ => (by cases hy), fun y m hy _ => (by cases hy)⟩

theorem wellLinked_linked {fs : FileSystem} {c : Nat} {cur : Node} (nw : Node)
    (hw : WellLinked fs) (hcur : deref fs.heap (some c) = some cur)
    (hleaf : nw.firstChild = none) :
    WellLinked { fs with heap := linked fs.heap c cur nw } := by
  obtain ⟨hb, hp, hroot⟩ := hw
  refine ⟨bounded_linked nw hb hcur hleaf, parentLinks_linked nw hb hp hcur hleaf, ?_⟩
  rcases hroot with hnone | ⟨r, hr, hrp⟩
  · exact Or.inl hnone
  · right
    cases hrt : fs.root with
    | none => rw [hrt] at hr; cases hr
    | some a =>
      rw [hrt] at hr
      obtain ⟨m, hm, _, _, _, _, hpar, _⟩ := deref_linked_old nw hcur hr
      exact ⟨m, hm, by rw [hpar]; exact hrp⟩

theorem wellLinked_effect {fs fs2 : FileSystem} {op : Op} (hw : WellLinked fs)
    (heff : Effect fs op fs2) : WellLinked fs2 := by
  cases heff with
  | same => exact hw
  | up name cur q hcur hp => exact hw
  | down name t target hf hd hdir => exact hw
  | madeDir name clk c cur hc hcur hf => exact wellLinked_linked _ hw hcur rfl
  | madeFile name content clk c cur hc hcur hf => exact wellLinked_linked _ hw hcur rfl

/-! ### Deleting a tree -/

theorem deleteTree_sub : ∀ (fuel : Nat) (h : Heap) (p : Ptr) (h2 : Heap),
    deleteTree fuel h p = some h2 →
      h2.length = h.length ∧ ∀ a n, deref h2 (some a) = some n → deref h (some a) = some n := by
  intro fuel
  induction fuel with
  | zero =>
    intro h p h2 hdel
    cases p with
    | none =>
      simp [deleteTree] at hdel
      subst hdel
      exact ⟨rfl, fun _ _ hd => hd⟩
    | some a => simp [deleteTree] at hdel
  | succ fuel ih =>
    intro h p h2 hdel
    cases p with
    | none =>
      simp [deleteTree] at hdel
      subst hdel
      exact ⟨rfl, fun _ _ hd => hd⟩
    | some a =>
      simp only [deleteTree] at hdel
      cases hd0 : deref h (some a) with
      | none => simp [hd0] at hdel
      | some n =>
        simp only [hd0] at hdel
        cases hk : deleteTree fuel h n.firstChild with
        | none => simp [hk] at hdel
        | some h1 =>
          simp only [hk] at hdel
          cases hd1 : deref h1 (some a) with
          | none => simp [hd1] at hdel
          | some n1 =>
            simp only [hd1] at hdel
            cases hs : deleteTree fuel h1 n1.nextSibling with
            | none => simp [hs] at hdel
            | some h3 =>
              simp only [hs] at hdel
              cases hd3 : deref h3 (some a) with
              | none => simp [hd3] at hdel
              | some n3 =>
                simp only [hd3] at hdel
                cases hdel
                obtain ⟨hl1, hsub1⟩ := ih h n.firstChild h1 hk
                obtain ⟨hl3, hsub3⟩ := ih h1 n1.nextSibling h3 hs
                refine ⟨by simp [hl1, hl3], ?_⟩
                intro b m hb
                rcases deref_set_cases hb with ⟨_, hx⟩ | ⟨_, hold⟩
                · cases hx
                · exact hsub1 b m (hsub3 b m hold)

theorem bounded_sub {h h2 : Heap} (hb : Bounded h) (hlen : h2.length = h.length)
    (hsub : ∀ a n, deref h2 (some a) = some n → deref h (some a) = some n) : Bounded h2 := by
  intro a n hd
  obtain ⟨hf, hs⟩ := hb a n (hsub a n hd)
  exact ⟨fun y hy => by rw [hlen]; exact hf y hy, fun y hy => by rw [hlen]; exact hs y hy⟩

theorem parentLinks_sub {h h2 : Heap} (hp : ParentLinks h)
    (hsub : ∀ a n, deref h2 (some a) = some n → deref h (some a) = some n) :
    ParentLinks h2 := by
  intro a n hd
  obtain ⟨hf, hs⟩ := hp a n (hsub a n hd)
  exact ⟨fun y m hy hm => hf y m hy (hsub y m hm), fun y m hy hm => hs y m hy (hsub y m hm)⟩

/-! ### Decoding -/

theorem decodeLine_parent (uninit : Int × Int) (line : List Char) (parent : Ptr) :
    (decodeLine uninit line parent).parent = parent := rfl

theorem decodeLine_firstChild (uninit : Int × Int) (line : List Char) (parent : Ptr) :
    (decodeLine uninit line parent).firstChild = none := rfl

theorem decodeLine_nextSibling (uninit : Int × Int) (line : List Char) (parent : Ptr) :
    (decodeLine uninit line parent).nextSibling = none := rfl

/-- The three ways a call of `deserializeNode` returns: the stream is at its end, the
line read is empty, or a node is built from the line and its two recursive calls return. -/
theorem deserialize_cases {uninit : Int × Int} {fuel : Nat} {h h5 : Heap}
    {inp rest3 : List Char} {parent r : Ptr}
    (hrun : deserializeNode uninit (fuel + 1) h inp parent = some (h5, rest3, r)) :
    (getline inp '\n' = none ∧ h5 = h ∧ rest3 = [] ∧ r = none) ∨
    (∃ rest, getline inp '\n' = some ([], rest) ∧ h5 = h ∧ rest3 = rest ∧ r = none) ∨
    (∃ line rest h2 rest2 fc h3 h4 ns,
      getline inp '\n' = some (line, rest) ∧ line ≠ [] ∧
      deserializeNode uninit fuel (h ++ [some (decodeLine uninit line parent)]) rest
        (some h.length) = some (h2, rest2, fc) ∧
      modify h2 (some h.length) (fun n => { n with firstChild := fc }) = some h3 ∧
      deserializeNode uninit fuel h3 rest2 parent = some (h4, rest3, ns) ∧
      modify h4 (some h.length) (fun n => { n with nextSibling := ns }) = some h5 ∧
      r = some h.length) := by
  simp only [deserializeNode] at hrun
  cases hg : getline inp '\n' with
  | none =>
    simp [hg] at hrun
    exact Or.inl ⟨rfl, hrun.1.symm, hrun.2.1, hrun.2.2.symm⟩
  | some lr =>
    obtain ⟨line, rest⟩ := lr
    simp only [hg] at hrun
    cases line with
    | nil =>
      simp at hrun
      exact Or.inr (Or.inl ⟨rest, rfl, hrun.1.symm, hrun.2.1.symm, hrun.2.2.symm⟩)
    | cons ch line =>
      simp only [List.isEmpty_cons, alloc] at hrun
      cases h1 : deserializeNode uninit fuel (h ++ [some (decodeLine uninit (ch :: line) parent)])
          rest (some h.length) with
      | none => simp [h1] at hrun
      | some r1 =>
        obtain ⟨h2, rest2, fc⟩ := r1
        simp only [h1] at hrun
        cases hm1 : modify h2 (some h.length) (fun n => { n with firstChild := fc }) with
        | none => simp [hm1] at hrun
        | some h3 =>
          simp only [hm1] at hrun
          cases h2r : deserializeNode uninit fuel h3 rest2 parent with
          | none => simp [h2r] at hrun
          | some r2 =>
            obtain ⟨h4, rest4, ns⟩ := r2
            simp only [h2r] at hrun
            cases hm2 : modify h4 (some h.length) (fun n => { n with nextSibling := ns }) with
            | none => simp [hm2] at hrun
            | some h6 =>
              simp [hm2] at hrun
              obtain ⟨e1, e2, e3⟩ := hrun
              subst e1 e2 e3
              exact Or.inr (Or.inr ⟨_, _, _, _, _, _, _, _, rfl, by simp, h1, hm1, h2r, hm2, rfl⟩)

theorem modify_eq_set {h h2 : Heap} {a : Nat} {n : Node} {f : Node → Node}
    (hd : deref h (some a) = some n) (hm : modify h (some a) f = some h2) :
    h2 = h.set a (some (f n)) := by
  simp [modify, hd] at hm
  exact hm.symm

theorem deref_of_getElem_eq {h h2 : Heap} {a : Nat} (he : h2[a]? = h[a]?) :
    deref h2 (some a) = deref h (some a) := by
  simp [deref, he]

/-- Decoding keeps a well-linked store well linked: the old cells are untouched, and the
node returned (if any) is new, live, and has the parent passed to the call. -/
theorem deserialize_wellLinked (uninit : Int × Int) :
    ∀ (fuel : Nat) (h : Heap) (inp : List Char) (parent : Ptr) (h5 : Heap)
      (rest3 : List Char) (r : Ptr), Bounded h → ParentLinks h →
      deserializeNode uninit fuel h inp parent = some (h5, rest3, r) →
      Bounded h5 ∧ ParentLinks h5 ∧ h.length ≤ h5.length ∧
        (∀ x, x < h.length → h5[x]? = h[x]?) ∧
        (∀ y, r = some y → h.length ≤ y ∧ ∃ m, deref h5 (some y) = some m ∧ m.parent = parent) := by
  intro fuel
  induction fuel with
  | zero =>
    intro h inp parent h5 rest3 r _ _ hrun
    simp [deserializeNode] at hrun
  | succ fuel ih =>
    intro h inp parent h5 rest3 r hb hp hrun
    rcases deserialize_cases hrun with ⟨_, rfl, _, rfl⟩ | ⟨rest, _, rfl, _, rfl⟩ |
      ⟨line, rest, h2, rest2, fc, h3, h4, ns, _, _, hc1, hm1, hc2, hm2, rfl⟩
    · exact ⟨hb, hp, le_refl _, fun _ _ => rfl, fun y hy => by cases hy⟩
    · exact ⟨hb, hp, le_refl _, fun _ _ => rfl, fun y hy => by cases hy⟩
    · have hb1 : Bounded (h ++ [some (decodeLine uninit line parent)]) :=
        bounded_append hb (fun y hy => by rw [decodeLine_firstChild] at hy; cases hy)
          (fun y hy => by rw [decodeLine_nextSibling] at hy; cases hy)
      have hp1 : ParentLinks (h ++ [some (decodeLine uninit line parent)]) :=
        parentLinks_append hb hp
          (fun y m hy _ => by rw [decodeLine_firstChild] at hy; cases hy)
          (fun y m hy _ => by rw [decodeLine_nextSibling] at hy; cases hy)
      obtain ⟨hb2, hp2, hl2, hold2, hr2⟩ := ih _ _ _ _ _ _ hb1 hp1 hc1
      have hl1 : (h ++ [some (decodeLine uninit line parent)]).length = h.length + 1 := by simp
      rw [hl1] at hl2 hold2 hr2
      have hd2 : deref h2 (some h.length) = some (decodeLine uninit line parent) := by
        rw [deref_of_getElem_eq (hold2 h.length (by omega))]
        exact deref_append_new _ _
      have e3 := modify_eq_set hd2 hm1
      have hfc : ∀ y, fc = some y → h.length + 1 ≤ y ∧ ∃ m, deref h2 (some y) = some m ∧
          m.parent = some h.length := hr2
      have hb3 : Bounded h3 := by
        rw [e3]
        apply bounded_set hb2
        · intro y hy
          obtain ⟨_, m, hm, _⟩ := hfc y hy
          exact deref_lt hm
        · intro y hy
          rw [show ({ decodeLine uninit line parent with firstChild := fc } : Node).nextSibling
            = none from rfl] at hy
          cases hy
      have hp3 : ParentLinks h3 := by
        rw [e3]
        refine @parentLinks_set _ h.length (decodeLine uninit line parent)
          { decodeLine uninit line parent with firstChild := fc } hp2 hd2 rfl ?_ ?_
        · intro y m hy hm
          obtain ⟨hge, m0, hm0, hpar⟩ := hfc y hy
          rw [deref_set_other _ (by omega), hm0] at hm
          cases hm
          exact hpar
        · intro y m hy _
          rw [show ({ decodeLine uninit line parent with firstChild := fc } : Node).nextSibling
            = none from rfl] at hy
          cases hy
      have hl3 : h3.length = h2.length := by rw [e3]; simp
      obtain ⟨hb4, hp4, hl4, hold4, hr4⟩ := ih _ _ _ _ _ _ hb3 hp3 hc2
      rw [hl3] at hl4 hold4 hr4
      have hd3 : deref h3 (some h.length) =
          some { decodeLine uninit line parent with firstChild := fc } := by
        rw [e3]
        exact deref_set_self _ (by omega)
      have hd4 : deref h4 (some h.length) =
          some { decodeLine uninit line parent with firstChild := fc } := by
        rw [deref_of_getElem_eq (hold4 h.length (by omega))]
        exact hd3
      have e5 := modify_eq_set hd4 hm2
      have hb5 : Bounded h5 := by
        rw [e5]
        apply bounded_set hb4
        · intro y hy
          obtain ⟨_, m, hm, _⟩ := hfc y hy
          have := deref_lt hm
          omega
        · intro y hy
          obtain ⟨_, m, hm, _⟩ := hr4 y hy
          exact deref_lt hm
      have hp5 : ParentLinks h5 := by
        rw [e5]
        refine @parentLinks_set _ h.length
          { decodeLine uninit line parent with firstChild := fc }
          { decodeLine uninit line parent with firstChild := fc, nextSibling := ns }
          hp4 hd4 rfl ?_ ?_
        · intro y m hy hm
          obtain ⟨hge, _⟩ := hfc y hy
          rw [deref_set_other _ (by omega)] at hm
          exact (hp4 _ _ hd4).1 y m hy hm
        · intro y m hy hm
          obtain ⟨hge, m0, hm0, hpar⟩ := hr4 y hy
          rw [deref_set_other _ (by omega), hm0] at hm
          cases hm
          exact hpar
      refine ⟨hb5, hp5, ?_, ?_, ?_⟩
      · rw [e5]
        simp
        omega
      · intro x hx
        rw [e5, List.getElem?_set_ne (by omega), hold4 x (by omega), e3,
          List.getElem?_set_ne (by omega), hold2 x (by omega),
          List.getElem?_append_left hx]
      · intro y hy
        cases hy
        refine ⟨le_refl _,
          { decodeLine uninit line parent with firstChild := fc, nextSibling := ns }, ?_, rfl⟩
        rw [e5]
        exact deref_set_self _ (by omega)

/-! ## C19: decoding ends -/

theorem getline_nil (d : Char) : getline [] d = none := rfl

theorem getline_cons (c : Char) (cs : List Char) (d : Char) :
    getline (c :: cs) d =
      some ((c :: cs).takeWhile (fun x => x != d), ((c :: cs).dropWhile (fun x => x != d)).drop 1) :=
  rfl

theorem linesOf_cons_of_ne {c : Char} (hc : c ≠ '\n') {cs l : List Char}
    {ls : List (List Char)} (h : linesOf cs = l :: ls) : linesOf (c :: cs) = (c :: l) :: ls := by
  rw [linesOf, if_neg hc, h]

/-- What one `getline` does to the lines of the stream: it delivers the first line and
leaves the others. -/
theorem getline_lines : ∀ (inp line rest : List Char),
    getline inp '\n' = some (line, rest) →
      linesOf inp = line :: linesOf rest ∧ rest.length < inp.length ∧ rest <:+ inp ∧
        '\n' ∉ line := by
  intro inp
  induction inp with
  | nil => intro line rest hg; cases hg
  | cons c cs ih =>
    intro line rest hg
    rw [getline_cons] at hg
    by_cases hc : c = '\n'
    · subst hc
      simp at hg
      obtain ⟨rfl, rfl⟩ := hg
      simp [linesOf]
    · have hne : (c != '\n') = true := by simpa using hc
      simp only [List.takeWhile_cons, List.dropWhile_cons, hne, if_true] at hg
      cases cs with
      | nil =>
        simp at hg
        obtain ⟨rfl, rfl⟩ := hg
        simp [linesOf, hc]
        exact fun e => hc e.symm
      | cons c2 cs2 =>
        have hg2 := getline_cons c2 cs2 '\n'
        obtain ⟨h1, h2, h3, h4⟩ := ih _ _ hg2
        simp only [Option.some.injEq, Prod.mk.injEq] at hg
        obtain ⟨rfl, rfl⟩ := hg
        refine ⟨?_, ?_, ?_, ?_⟩
        · exact linesOf_cons_of_ne hc h1
        · simp at h2 ⊢
          omega
        · exact h3.trans (List.suffix_cons _ _)
        · intro hmem
          rcases List.mem_cons.1 hmem with e | e
          · exact hc e.symm
          · exact h4 e

theorem deserialize_end (uninit : Int × Int) (fuel : Nat) (h : Heap) (parent : Ptr) :
    deserializeNode uninit (fuel + 1) h [] parent = some (h, [], none) := by
  simp [deserializeNode, getline]

theorem deserialize_empty_line (uninit : Int × Int) (fuel : Nat) (h : Heap)
    (rest : List Char) (parent : Ptr) :
    deserializeNode uninit (fuel + 1) h ('\n' :: rest) parent = some (h, rest, none) := by
  simp [deserializeNode, getline]

theorem deserialize_build {uninit : Int × Int} {fuel : Nat} {h h2 h3 h4 h5 : Heap}
    {inp line rest rest2 rest3 : List Char} {parent fc ns : Ptr}
    (hg : getline inp '\n' = some (line, rest)) (hne : line ≠ [])
    (hc1 : deserializeNode uninit fuel (h ++ [some (decodeLine uninit line parent)]) rest
      (some h.length) = some (h2, rest2, fc))
    (hm1 : modify h2 (some h.length) (fun n => { n with firstChild := fc }) = some h3)
    (hc2 : deserializeNode uninit fuel h3 rest2 parent = some (h4, rest3, ns))
    (hm2 : modify h4 (some h.length) (fun n => { n with nextSibling := ns }) = some h5) :
    deserializeNode uninit (fuel + 1) h inp parent = some (h5, rest3, some h.length) := by
  have hemp : line.isEmpty = false := by
    cases line with
    | nil => exact absurd rfl hne
    | cons _ _ => rfl
  simp only [deserializeNode, hg, hemp, alloc, hc1, hm1, hc2, hm2]
  simp

/-- More fuel does not change what decoding returns. -/
theorem deserialize_mono (uninit : Int × Int) :
    ∀ (fuel : Nat) (h : Heap) (inp : List Char) (parent : Ptr)
      (res : Heap × List Char × Ptr),
      deserializeNode uninit fuel h inp parent = some res →
      deserializeNode uninit (fuel + 1) h inp parent = some res := by
  intro fuel
  induction fuel with
  | zero =>
    intro h inp parent res hrun
    simp [deserializeNode] at hrun
  | succ fuel ih =>
    intro h inp parent res hrun
    obtain ⟨h5, rest3, r⟩ := res
    rcases deserialize_cases hrun with ⟨hg, rfl, rfl, rfl⟩ | ⟨rest, hg, rfl, rfl, rfl⟩ |
      ⟨line, rest, h2, rest2, fc, h3, h4, ns, hg, hne, hc1, hm1, hc2, hm2, rfl⟩
    · simp [deserializeNode, hg]
    · simp [deserializeNode, hg]
    · exact deserialize_build hg hne (ih _ _ _ _ hc1) hm1 (ih _ _ _ _ hc2) hm2

theorem deserialize_mono_add (uninit : Int × Int) {fuel : Nat} {h : Heap} {inp : List Char}
    {parent : Ptr} {res : Heap × List Char × Ptr}
    (hrun : deserializeNode uninit fuel h inp parent = some res) (k : Nat) :
    deserializeNode uninit (fuel + k) h inp parent = some res := by
  induction k with
  | zero => exact hrun
  | succ k ih => exact deserialize_mono uninit _ _ _ _ _ ih

/-- Decoding returns on every stream, given fuel beyond the length of the stream: it
consumes a run of lines from the front of the stream, builds at most one cell per line
consumed, and leaves the old cells as they are. -/
theorem deserialize_total (uninit : Int × Int) :
    ∀ (fuel : Nat) (inp : List Char) (h : Heap) (parent : Ptr), inp.length < fuel →
      ∃ h5 rest3 r consumed,
        deserializeNode uninit fuel h inp parent = some (h5, rest3, r) ∧
        linesOf inp = consumed ++ linesOf rest3 ∧ rest3 <:+ inp ∧
        h.length ≤ h5.length ∧ h5.length ≤ h.length + consumed.length ∧
        (∀ x, x < h.length → h5[x]? = h[x]?) := by
  intro fuel
  induction fuel with
  | zero => intro inp h parent hlt; omega
  | succ fuel ih =>
    intro inp h parent hlt
    cases hg : getline inp '\n' with
    | none =>
      cases inp with
      | nil =>
        exact ⟨h, [], none, [], deserialize_end uninit fuel h parent, rfl,
          List.suffix_refl _, le_refl _, by simp, fun _ _ => rfl⟩
      | cons c cs => rw [getline_cons] at hg; cases hg
    | some lr =>
      obtain ⟨line, rest⟩ := lr
      obtain ⟨hlines, hlen, hsuf, _⟩ := getline_lines inp line rest hg
      by_cases hne : line = []
      · subst hne
        refine ⟨h, rest, none, [[]], ?_, by simpa using hlines, hsuf, le_refl _, by simp,
          fun _ _ => rfl⟩
        simp [deserializeNode, hg]
      · obtain ⟨h2, rest2, fc, cons1, hc1, hl1, hs1, hge1, hle1, hold1⟩ :=
          ih rest (h ++ [some (decodeLine uninit line parent)]) (some h.length) (by omega)
        have hlen1 : (h ++ [some (decodeLine uninit line parent)]).length = h.length + 1 := by
          simp
        rw [hlen1] at hge1 hle1 hold1
        have hd2 : deref h2 (some h.length) = some (decodeLine uninit line parent) := by
          rw [deref_of_getElem_eq (hold1 h.length (by omega))]
          exact deref_append_new _ _
        have hm1 : modify h2 (some h.length) (fun n => { n with firstChild := fc }) =
            some (h2.set h.length (some { decodeLine uninit line parent with firstChild := fc })) := by
          simp [modify, hd2]
        have hrest2 : rest2.length ≤ rest.length := hs1.length_le
        obtain ⟨h4, rest3, ns, cons2, hc2, hl2, hs2, hge2, hle2, hold2⟩ :=
          ih rest2 (h2.set h.length (some { decodeLine uninit line parent with firstChild := fc }))
            parent (by omega)
        have hlen3 : (h2.set h.length
            (some { decodeLine uninit line parent with firstChild := fc })).length = h2.length := by
          simp
        rw [hlen3] at hge2 hle2 hold2
        have hd4 : deref h4 (some h.length) =
            some { decodeLine uninit line parent with firstChild := fc } := by
          rw [deref_of_getElem_eq (hold2 h.length (by omega))]
          exact deref_set_self _ (by omega)
        have hm2 : modify h4 (some h.length) (fun n => { n with nextSibling := ns }) =
            some (h4.set h.length (some { decodeLine uninit line parent with
              firstChild := fc, nextSibling := ns })) := by
          simp [modify, hd4]
        refine ⟨_, rest3, some h.length, line :: (cons1 ++ cons2),
          deserialize_build hg hne hc1 hm1 hc2 hm2, ?_, ?_, ?_, ?_, ?_⟩
        · rw [hlines, hl1, hl2]
          simp
        · exact hs2.trans (hs1.trans hsuf)
        · simp
          omega
        · simp
          omega
        · intro x hx
          rw [List.getElem?_set_ne (by omega), hold2 x (by omega),
            List.getElem?_set_ne (by omega), hold1 x (by omega),
            List.getElem?_append_left hx]

theorem deserialize_returns (uninit : Int × Int) (h : Heap) (inp : List Char) (parent : Ptr) :
    ∃ h5 rest r consumed,
      (∀ fuel, inp.length < fuel →
        deserializeNode uninit fuel h inp parent = some (h5, rest, r)) ∧
      linesOf inp = consumed ++ linesOf rest ∧ rest <:+ inp ∧
      h5.length ≤ h.length + consumed.length ∧
      h5.length ≤ h.length + (linesOf inp).length := by
  obtain ⟨h5, rest, r, consumed, hrun, hlines, hsuf, _, hle, _⟩ :=
    deserialize_total uninit (inp.length + 1) inp h parent (Nat.lt_succ_self _)
  refine ⟨h5, rest, r, consumed, ?_, hlines, hsuf, hle, ?_⟩
  · intro fuel hf
    obtain ⟨k, rfl⟩ : ∃ k, fuel = inp.length + 1 + k := ⟨fuel - (inp.length + 1), by omega⟩
    exact deserialize_mono_add uninit hrun k
  · rw [hlines]
    simp
    omega

/-- C19. For every stream (and every store and parent pointer it is called with),
`deserializeNode` returns, and returns the same for every amount of fuel beyond the length
of the stream.  The lines it has consumed are a run at the front of the lines of the
stream and what it leaves unread is the rest of the stream, so no line is read twice; it
builds at most one cell per line consumed, hence at most as many nodes as the stream has
lines.  At the end of the stream and at an empty line it returns the null pointer at once,
building nothing. -/
theorem C19_decoding_ends (uninit : Int × Int) (h : Heap) (inp : List Char) (parent : Ptr) :
    (∃ h5 rest r consumed,
      (∀ fuel, inp.length < fuel →
        deserializeNode uninit fuel h inp parent = some (h5, rest, r)) ∧
      linesOf inp = consumed ++ linesOf rest ∧ rest <:+ inp ∧
      h5.length ≤ h.length + consumed.length ∧
      h5.length ≤ h.length + (linesOf inp).length) ∧
    (∀ fuel, deserializeNode uninit (fuel + 1) h [] parent = some (h, [], none)) ∧
    (∀ fuel rest, deserializeNode uninit (fuel + 1) h ('\n' :: rest) parent
      = some (h, rest, none)) := by
  exact ⟨deserialize_returns uninit h inp parent,
    fun fuel => deserialize_end uninit fuel h parent,
    fun fuel rest => deserialize_empty_line uninit fuel h rest parent⟩

/-! ### The parent-link invariant -/

theorem parentLinks_sibReach {h : Heap} (hp : ParentLinks h) {q : Ptr} {a : Nat}
    (hreach : SibReach h q a) :
    ∀ P : Ptr, (∀ y m, q = some y → deref h (some y) = some m → m.parent = P) →
      ∀ n, deref h (some a) = some n → n.parent = P := by
  induction hreach with
  | head hd =>
    intro P hq n hn
    exact hq _ n rfl hn
  | @tail a b n0 hd _ ih =>
    intro P hq n hn
    apply ih P _ n hn
    intro y m hy hm
    rw [(hp a n0 hd).2 y m hy hm]
    exact hq a n0 rfl hd

theorem Chain.sibReach {h : Heap} {q : Ptr} {l : List (Nat × Node)} (hch : Chain h q l) :
    ∀ e ∈ l, SibReach h q e.1 := by
  induction hch with
  | nil => intro e he; cases he
  | cons hd _ ih =>
    intro e he
    rcases List.mem_cons.1 he with rfl | he
    · exact SibReach.head hd
    · exact SibReach.tail hd (ih e he)

theorem parentLinked_of_links {h : Heap} {root : Ptr} (hp : ParentLinks h)
    (hroot : root = none ∨ ∃ r, deref h root = some r ∧ r.parent = none) :
    ParentLinked h root := by
  have key : ∀ p cur a n, deref h (some p) = some cur → SibReach h cur.firstChild a →
      deref h (some a) = some n → n.parent = some p := by
    intro p cur a n hcur hreach hn
    exact parentLinks_sibReach hp hreach (some p)
      (fun y m hy hm => (hp p cur hcur).1 y m hy hm) n hn
  refine ⟨?_, key, ?_⟩
  · intro r hr
    rcases hroot with hnone | ⟨r2, hr2, hpar⟩
    · rw [hnone] at hr
      cases hr
    · rw [hr2] at hr
      cases hr
      exact hpar
  · intro p cur l hcur hch e he
    exact key p cur e.1 e.2 hcur (hch.sibReach e he) (hch.deref_of_mem e he)

theorem wellLinked_load {uninit : Int × Int} {fs fs2 : FileSystem} {disk : Disk}
    {filename out : String} (hw : WellLinked fs)
    (hrun : loadFromFile uninit fs disk filename = some (fs2, out)) : WellLinked fs2 := by
  unfold loadFromFile at hrun
  cases hdisk : disk filename with
  | none =>
    simp [hdisk] at hrun
    rw [← hrun.1]
    exact hw
  | some text =>
    simp only [hdisk] at hrun
    cases hdel : deleteTree fs.heap.length fs.heap fs.root with
    | none => simp [hdel] at hrun
    | some h1 =>
      simp only [hdel] at hrun
      cases hdes : deserializeNode uninit (text.length + 1) h1 text.data none with
      | none => simp [hdes] at hrun
      | some res =>
        obtain ⟨h2, rest, r⟩ := res
        simp [hdes] at hrun
        rw [← hrun.1]
        obtain ⟨hlen, hsub⟩ := deleteTree_sub _ _ _ _ hdel
        obtain ⟨hb2, hp2, _, _, hr⟩ := deserialize_wellLinked uninit _ _ _ _ _ _ _
          (bounded_sub hw.1 hlen hsub) (parentLinks_sub hw.2.1 hsub) hdes
        refine ⟨hb2, hp2, ?_⟩
        cases r with
        | none => exact Or.inl rfl
        | some y =>
          obtain ⟨_, m, hm, hpar⟩ := hr y rfl
          exact Or.inr ⟨m, hm, hpar⟩

theorem wellLinked_step {fs fs2 : FileSystem} {op : Op} {out : String} (hw : WellLinked fs)
    (hrun : op.run fs = some (fs2, out)) : WellLinked fs2 := by
  cases op with
  | mkdir name clk => exact wellLinked_effect hw (mkdir_effect hrun)
  | touch name content clk => exact wellLinked_effect hw (touch_effect hrun)
  | cd name => exact wellLinked_effect hw (cd_effect hrun)
  | load uninit disk filename => exact wellLinked_load hw hrun

/-- C13. In every state reached from a freshly constructed file system by `mkdir`,
`touch`, `cd` and `loadFromFile` calls, and in every tree `deserializeNode(stream,
nullptr)` returns (which it does for every stream), the root has no parent and every cell
in the child chain of a live node has that node as its parent. -/
theorem C13_parent_links_fit :
    (∀ (c0 : Clock) (ops : List Op) (fs : FileSystem) (out : String),
      runOps (FileSystem.new c0) ops = some (fs, out) → ParentLinked fs.heap fs.root) ∧
    (∀ (uninit : Int × Int) (inp : List Char), ∃ h5 rest r,
      (∀ fuel, inp.length < fuel →
        deserializeNode uninit fuel [] inp none = some (h5, rest, r)) ∧
      ParentLinked h5 r) := by
  constructor
  · intro c0 ops fs out hrun
    have hw : WellLinked fs :=
      runOps_invariant WellLinked (fun _ => True)
        (fun _ _ _ _ hP _ hstep => wellLinked_step hP hstep)
        ops _ fs out (wellLinked_fresh c0) (fun _ _ => trivial) hrun
    exact parentLinked_of_links hw.2.1 hw.2.2
  · intro uninit inp
    obtain ⟨h5, rest, r, _, hrun, _⟩ := deserialize_returns uninit [] inp none
    refine ⟨h5, rest, r, hrun, ?_⟩
    have hb0 : Bounded [] := by
      intro a n hd
      have := deref_lt hd
      simp at this
    have hp0 : ParentLinks [] := by
      intro a n hd
      have := deref_lt hd
      simp at this
    obtain ⟨_, hp5, _, _, hr⟩ := deserialize_wellLinked uninit _ _ _ _ _ _ _ hb0 hp0
      (hrun (inp.length + 1) (Nat.lt_succ_self _))
    apply parentLinked_of_links hp5
    cases r with
    | none => exact Or.inl rfl
    | some y =>
      obtain ⟨_, m, hm, hpar⟩ := hr y rfl
      exact Or.inr ⟨m, hm, hpar⟩

theorem C13_parent_links_fit_witness :
    runOps (FileSystem.new ⟨0, 0⟩) loadRun
        = some (loadRunFs, "Error: Could not load from file.\n") ∧
      ParentLinked loadRunFs.heap loadRunFs.root :=
  ⟨by decide,
    C13_parent_links_fit.1 ⟨0, 0⟩ loadRun loadRunFs "Error: Could not load from file.\n"
      (by decide)⟩

/-! ## C14: the cursor after a load -/

/-- C14 (fails on the code). Loading a file that opens but is empty deletes the tree and
leaves `root` and `current` null: the cursor refers to no node, and the next call
(`mkdir`, `touch`, `cd`, `ls`, `cat` or `pwd`) dereferences the null cursor. -/
theorem C14_load_of_empty_stream_nulls_cursor :
    sampleDisk "empty.txt" = some "" ∧
      runOps (FileSystem.new ⟨0, 0⟩) [Op.load (7, 7) sampleDisk "empty.txt"]
        = some (emptyLoadFs, "") ∧
      emptyLoadFs.current = none ∧ emptyLoadFs.root = none ∧
      deref emptyLoadFs.heap emptyLoadFs.current = none ∧
      mkdir emptyLoadFs "d" ⟨1, 1⟩ = none ∧ touch emptyLoadFs "f" "" ⟨1, 1⟩ = none ∧
      cd emptyLoadFs "d" = none ∧ cd emptyLoadFs ".." = none ∧ ls emptyLoadFs = none ∧
      cat emptyLoadFs "f" = none ∧ pwd emptyLoadFs = none := by
  refine ⟨by decide, by decide, rfl, rfl, by decide, by decide, by decide, by decide,
    by decide, by decide, by decide, by decide⟩

/-! ## C18: time stamps through the codec -/

/-- C18 (fails on the code). For the file node `stampedNode` (no `|` and no line break in
name or content, `createdAt = 1700000000`, `modifiedAt = 1700000005`) the line written is
`notes.txt|0|hi|1700000000|1700000005`; decoding it restores `createdAt` but leaves
`modifiedAt = 0`, because the second extraction meets the `|` left unread after the first
number.  Decoding the text `serializeNode` writes for a store holding just this node gives
the same node. -/
theorem C18_modifiedAt_is_lost :
    encodeLine stampedNode = "notes.txt|0|hi|1700000000|1700000005".data ∧
      (decodeLine (7, 7) (encodeLine stampedNode) none).createdAt = stampedNode.createdAt ∧
      (decodeLine (7, 7) (encodeLine stampedNode) none).modifiedAt = 0 ∧
      (decodeLine (7, 7) (encodeLine stampedNode) none).modifiedAt ≠ stampedNode.modifiedAt ∧
      serializeNode [some stampedNode] 1 (some 0)
        = some "notes.txt|0|hi|1700000000|1700000005\n".data ∧
      deserializeNode (7, 7) 40 [] "notes.txt|0|hi|1700000000|1700000005\n".data none
        = some ([some { stampedNode with modifiedAt := 0 }], [], some 0) := by
  refine ⟨by decide, by decide, by decide, by decide, by decide, by decide⟩

/-! ## C12: the persisted format -/

theorem IsTree.unfolds_once {h : Heap} {p : Ptr} {t₁ t₂ : HTree}
    (h₁ : IsTree h p t₁) (h₂ : IsTree h p t₂) : t₁ = t₂ := by
  induction h₁ generalizing t₂ with
  | absent => cases h₂; rfl
  | node hd _ _ ihk ihs =>
    cases h₂ with
    | node hd2 hk2 hs2 =>
      rw [hd] at hd2
      cases hd2
      rw [ihk hk2, ihs hs2]

theorem IsTree.subtree {h : Heap} {p : Ptr} {t : HTree} (ht : IsTree h p t) :
    ∀ x ∈ t.addrs, ∃ t2, IsTree h (some x) t2 ∧ t2.size ≤ t.size := by
  induction ht with
  | absent => intro x hx; cases hx
  | @node a n k s hd hk hs ihk ihs =>
    intro x hx
    simp only [HTree.addrs, List.mem_cons, List.mem_append] at hx
    rcases hx with rfl | hx | hx
    · exact ⟨_, IsTree.node hd hk hs, le_refl _⟩
    · obtain ⟨t2, ht2, hle⟩ := ihk x hx
      exact ⟨t2, ht2, by simp only [HTree.size]; omega⟩
    · obtain ⟨t2, ht2, hle⟩ := ihs x hx
      exact ⟨t2, ht2, by simp only [HTree.size]; omega⟩

theorem IsTree.addr_lt {h : Heap} {p : Ptr} {t : HTree} (ht : IsTree h p t) :
    ∀ x ∈ t.addrs, x < h.length := by
  intro x hx
  obtain ⟨t2, ht2, _⟩ := ht.subtree x hx
  cases ht2 with
  | node hd _ _ => exact deref_lt hd

/-- An address does not occur again below its own node. -/
theorem IsTree.root_not_below {h : Heap} {a : Nat} {n : Node} {k s : HTree}
    (ht : IsTree h (some a) (HTree.node a n k s)) : a ∉ k.addrs ∧ a ∉ s.addrs := by
  cases ht with
  | node hd hk hs =>
    constructor
    · intro ha
      obtain ⟨t2, ht2, hle⟩ := hk.subtree a ha
      have := IsTree.unfolds_once ht2 (IsTree.node hd hk hs)
      rw [this] at hle
      simp only [HTree.size] at hle
      omega
    · intro ha
      obtain ⟨t2, ht2, hle⟩ := hs.subtree a ha
      have := IsTree.unfolds_once ht2 (IsTree.node hd hk hs)
      rw [this] at hle
      simp only [HTree.size] at hle
      omega

theorem length_le_of_nodup_lt {S : List Nat} {n : Nat} (hnd : S.Nodup)
    (hlt : ∀ x ∈ S, x < n) : S.length ≤ n := by
  have hsub : S ⊆ List.range n := fun x hx => List.mem_range.2 (hlt x hx)
  have := (List.subperm_of_subset hnd hsub).length_le
  simpa using this

/-- A tree in the store is no deeper than the store is large: the addresses along a path
are pairwise different. -/
theorem IsTree.depth_add_le {h : Heap} {p : Ptr} {t : HTree} (ht : IsTree h p t) :
    ∀ S : List Nat, S.Nodup → (∀ x ∈ S, x < h.length) → (∀ x ∈ S, x ∉ t.addrs) →
      t.depth + S.length ≤ h.length := by
  induction ht with
  | absent =>
    intro S hnd hlt _
    simpa [HTree.depth] using length_le_of_nodup_lt hnd hlt
  | @node a n k s hd hk hs ihk ihs =>
    intro S hnd hlt havoid
    obtain ⟨hak, has⟩ := (IsTree.node hd hk hs).root_not_below
    have haS : a ∉ S := fun ha => havoid a ha (by simp [HTree.addrs])
    have hnd2 : (a :: S).Nodup := List.nodup_cons.2 ⟨haS, hnd⟩
    have hlt2 : ∀ x ∈ a :: S, x < h.length := by
      intro x hx
      rcases List.mem_cons.1 hx with rfl | hx
      · exact deref_lt hd
      · exact hlt x hx
    have hk2 := ihk (a :: S) hnd2 hlt2 (by
      intro x hx
      rcases List.mem_cons.1 hx with rfl | hx
      · exact hak
      · exact fun hxk => havoid x hx (by simp [HTree.addrs, hxk]))
    have hs2 := ihs (a :: S) hnd2 hlt2 (by
      intro x hx
      rcases List.mem_cons.1 hx with rfl | hx
      · exact has
      · exact fun hxs => havoid x hx (by simp [HTree.addrs, hxs]))
    simp only [HTree.depth, List.length_cons] at hk2 hs2 ⊢
    omega

theorem IsTree.depth_le {h : Heap} {p : Ptr} {t : HTree} (ht : IsTree h p t) :
    t.depth ≤ h.length := by
  simpa using ht.depth_add_le [] List.nodup_nil (by simp) (by simp)

theorem serializeNode_of_tree {h : Heap} {p : Ptr} {t : HTree} (ht : IsTree h p t) :
    ∀ fuel, t.depth ≤ fuel → serializeNode h fuel p = some t.encode := by
  induction ht with
  | absent =>
    intro fuel _
    cases fuel <;> simp [serializeNode, HTree.encode]
  | @node a n k s hd hk hs ihk ihs =>
    intro fuel hf
    cases fuel with
    | zero => simp [HTree.depth] at hf
    | succ fuel =>
      simp only [HTree.depth] at hf
      simp only [serializeNode, hd, ihk fuel (by omega), ihs fuel (by omega), HTree.encode]

theorem toDigitsCore_chars (fuel : Nat) :
    ∀ (n : Nat) (ds : List Char) (c : Char), c ∈ Nat.toDigitsCore 10 fuel n ds →
      c ∈ ds ∨ ∃ d, d < 10 ∧ c = Nat.digitChar d := by
  induction fuel with
  | zero =>
    intro n ds c hc
    simp [Nat.toDigitsCore] at hc
    exact Or.inl hc
  | succ fuel ih =>
    intro n ds c hc
    simp only [Nat.toDigitsCore] at hc
    split at hc
    · rcases List.mem_cons.1 hc with rfl | hc
      · exact Or.inr ⟨n % 10, Nat.mod_lt _ (by decide), rfl⟩
      · exact Or.inl hc
    · rcases ih _ _ c hc with hmem | hdig
      · rcases List.mem_cons.1 hmem with rfl | hmem
        · exact Or.inr ⟨n % 10, Nat.mod_lt _ (by decide), rfl⟩
        · exact Or.inl hmem
      · exact Or.inr hdig

theorem digitChar_ne_newline : ∀ d, d < 10 → Nat.digitChar d ≠ '\n' := by
  decide

theorem showLong_no_newline (v : Int) : '\n' ∉ showLong v := by
  have key : ∀ n, '\n' ∉ Nat.toDigits 10 n := by
    intro n hmem
    rcases toDigitsCore_chars _ _ _ _ hmem with h | ⟨d, hd, he⟩
    · cases h
    · exact digitChar_ne_newline d hd he.symm
  cases v with
  | ofNat n => exact key n
  | negSucc n =>
    intro hmem
    rcases List.mem_cons.1 hmem with h | h
    · revert h
      decide
    · exact key _ h

/-- The line of a node holds no line end when its name and content hold none. -/
theorem encodeLine_no_newline {n : Node} (hname : '\n' ∉ n.name.data)
    (hcontent : '\n' ∉ n.content.data) : '\n' ∉ encodeLine n := by
  have hs1 := showLong_no_newline n.createdAt
  have hs2 := showLong_no_newline n.modifiedAt
  have hbar : '\n' ≠ '|' := by decide
  have h1 : '\n' ≠ '1' := by decide
  have h0 : '\n' ≠ '0' := by decide
  unfold encodeLine
  cases n.isDirectory <;> simp [hname, hcontent, hs1, hs2, hbar, h1, h0]

theorem encodeLine_ne_nil (n : Node) : encodeLine n ≠ [] := by
  intro h
  have : '|' ∈ encodeLine n := by
    unfold encodeLine
    simp
  rw [h] at this
  cases this

theorem linesOf_line {l : List Char} (hl : '\n' ∉ l) (rest : List Char) :
    linesOf (l ++ '\n' :: rest) = l :: linesOf rest := by
  induction l with
  | nil => simp [linesOf]
  | cons c cs ih =>
    have hc : c ≠ '\n' := fun e => hl (by simp [e])
    have hcs : '\n' ∉ cs := fun e => hl (List.mem_cons_of_mem _ e)
    exact linesOf_cons_of_ne hc (ih hcs)

theorem linesOf_unlines {ls : List (List Char)} (hls : ∀ l ∈ ls, '\n' ∉ l) :
    linesOf (unlines ls) = ls := by
  induction ls with
  | nil => rfl
  | cons l ls ih =>
    have : unlines (l :: ls) = l ++ '\n' :: unlines ls := by simp [unlines]
    rw [this, linesOf_line (hls l (List.mem_cons_self _ _)),
      ih (fun x hx => hls x (List.mem_cons_of_mem _ hx))]

theorem unlines_append (l₁ l₂ : List (List Char)) :
    unlines (l₁ ++ l₂) = unlines l₁ ++ unlines l₂ := by
  simp [unlines]

theorem encode_eq_unlines (t : HTree) : t.encode = unlines (t.preorder.map encodeLine) := by
  induction t with
  | absent => rfl
  | node a n k s ihk ihs =>
    simp only [HTree.encode, HTree.preorder, List.map_cons, List.map_append, ihk, ihs]
    simp [unlines]

theorem showLong_eq_toString (v : Int) : String.mk (showLong v) = toString v := by
  cases v with
  | ofNat n => rfl
  | negSucc n => rfl

theorem encodeLine_text (n : Node) :
    String.mk (encodeLine n) =
      n.name ++ "|" ++ (if n.isDirectory then "1" else "0") ++ "|" ++ n.content ++ "|" ++
        toString n.createdAt ++ "|" ++ toString n.modifiedAt := by
  apply String.ext
  rw [← showLong_eq_toString, ← showLong_eq_toString]
  cases hdir : n.isDirectory <;> simp [encodeLine, hdir]

/-- C12. For every tree in the store, `serializeNode` (and `saveToFile`, when the file
opens) writes exactly the text of the format: one record per node, the record of a node
followed by the records of its `firstChild` tree and then those of its `nextSibling` tree
(`HTree.encode`), that is the records of the nodes in pre-order, each closed by a line
end.  A record reads `name|0 or 1|content|createdAt|modifiedAt`.  When no name and no
content holds a line break, the lines of the text are exactly these records. -/
theorem C12_persisted_format (fs : FileSystem) (t : HTree)
    (ht : IsTree fs.heap fs.root t) :
    serializeNode fs.heap fs.heap.length fs.root = some t.encode ∧
      saveToFile fs true = some (some (String.mk t.encode), "") ∧
      t.encode = unlines (t.preorder.map encodeLine) ∧
      (∀ n, String.mk (encodeLine n) =
        n.name ++ "|" ++ (if n.isDirectory then "1" else "0") ++ "|" ++ n.content ++ "|" ++
          toString n.createdAt ++ "|" ++ toString n.modifiedAt) ∧
      ((∀ n ∈ t.preorder, '\n' ∉ n.name.data ∧ '\n' ∉ n.content.data) →
        linesOf t.encode = t.preorder.map encodeLine) := by
  have hser := serializeNode_of_tree ht fs.heap.length ht.depth_le
  refine ⟨hser, ?_, encode_eq_unlines t, encodeLine_text, ?_⟩
  · simp [saveToFile, hser]
  · intro hclean
    rw [encode_eq_unlines]
    apply linesOf_unlines
    intro l hl
    obtain ⟨n, hn, rfl⟩ := List.mem_map.1 hl
    exact encodeLine_no_newline (hclean n hn).1 (hclean n hn).2

theorem twoChildren_isTree : IsTree twoChildrenFs.heap twoChildrenFs.root twoChildrenTree :=
  IsTree.node (by decide)
    (IsTree.node (by decide) IsTree.absent
      (IsTree.node (by decide) IsTree.absent IsTree.absent))
    IsTree.absent

theorem twoChildren_clean :
    ∀ n ∈ twoChildrenTree.preorder, '\n' ∉ n.name.data ∧ '\n' ∉ n.content.data := by
  decide

theorem C12_persisted_format_witness :
    IsTree twoChildrenFs.heap twoChildrenFs.root twoChildrenTree ∧
      serializeNode twoChildrenFs.heap twoChildrenFs.heap.length twoChildrenFs.root
        = some twoChildrenTree.encode ∧
      saveToFile twoChildrenFs true = some (some (String.mk twoChildrenTree.encode), "") ∧
      twoChildrenTree.encode = "/|1||100|100\nb|1||102|102\na|1||101|101\n".data ∧
      linesOf twoChildrenTree.encode = twoChildrenTree.preorder.map encodeLine :=
  have key := C12_persisted_format twoChildrenFs twoChildrenTree twoChildren_isTree
  ⟨twoChildren_isTree, key.1, key.2.1, by decide, key.2.2.2.2 twoChildren_clean⟩

/-! ## C20: what decoding a save builds -/

theorem getline_line {l : List Char} (hl : '\n' ∉ l) (rest : List Char) :
    getline (l ++ '\n' :: rest) '\n' = some (l, rest) := by
  have htake : ∀ (l : List Char), '\n' ∉ l →
      (l ++ '\n' :: rest).takeWhile (fun x => x != '\n') = l ∧
      (l ++ '\n' :: rest).dropWhile (fun x => x != '\n') = '\n' :: rest := by
    intro l
    induction l with
    | nil => intro _; simp
    | cons c cs ih =>
      intro h
      have hc : c ≠ '\n' := fun e => h (by simp [e])
      have hcs : '\n' ∉ cs := fun e => h (List.mem_cons_of_mem _ e)
      obtain ⟨h1, h2⟩ := ih hcs
      have hne : (c != '\n') = true := by simpa using hc
      simp [List.takeWhile_cons, List.dropWhile_cons, hne, h1, h2]
  obtain ⟨h1, h2⟩ := htake l hl
  cases l with
  | nil => simp [getline]
  | cons c cs =>
    rw [List.cons_append, getline_cons, ← List.cons_append, h1, h2]
    rfl

theorem unlines_cons (l : List Char) (ls : List (List Char)) :
    unlines (l :: ls) = l ++ '\n' :: unlines ls := by
  simp [unlines]

/-- Decoding a text without empty lines builds one first-child chain, one cell per
line. -/
theorem deserialize_chain (uninit : Int × Int) :
    ∀ (ls : List (List Char)), (∀ l ∈ ls, l ≠ [] ∧ '\n' ∉ l) →
      ∀ (h : Heap) (parent : Ptr) (fuel : Nat), ls.length < fuel →
        deserializeNode uninit fuel h (unlines ls) parent =
          some (h ++ chainCells uninit h.length parent ls, [],
            if ls.isEmpty then none else some h.length) := by
  intro ls
  induction ls with
  | nil =>
    intro _ h parent fuel hf
    obtain ⟨f, rfl⟩ : ∃ f, fuel = f + 1 := ⟨fuel - 1, by simp at hf; omega⟩
    simp [unlines, chainCells, deserialize_end]
  | cons l ls ih =>
    intro hls h parent fuel hf
    obtain ⟨f, rfl⟩ : ∃ f, fuel = f + 1 := ⟨fuel - 1, by simp at hf; omega⟩
    obtain ⟨g, rfl⟩ : ∃ g, f = g + 1 := ⟨f - 1, by simp at hf; omega⟩
    obtain ⟨hne, hnl⟩ := hls l (List.mem_cons_self _ _)
    have hg : getline (unlines (l :: ls)) '\n' = some (l, unlines ls) := by
      rw [unlines_cons]
      exact getline_line hnl _
    have hc1 := ih (fun x hx => hls x (List.mem_cons_of_mem _ hx))
      (h ++ [some (decodeLine uninit l parent)]) (some h.length) (g + 1)
      (by simp at hf; omega)
    have hlen1 : (h ++ [some (decodeLine uninit l parent)]).length = h.length + 1 := by simp
    rw [hlen1] at hc1
    have hd2 : deref (h ++ [some (decodeLine uninit l parent)] ++
        chainCells uninit (h.length + 1) (some h.length) ls) (some h.length) =
        some (decodeLine uninit l parent) :=
      deref_append_of_some _ (deref_append_new _ _)
    have hset : ∀ x : Option Node, (h ++ [some (decodeLine uninit l parent)] ++
        chainCells uninit (h.length + 1) (some h.length) ls).set h.length x =
        h ++ [x] ++ chainCells uninit (h.length + 1) (some h.length) ls := by
      intro x
      rw [List.set_append_left _ _ (by simp)]
      simp [List.set_append]
    have hm1 : modify (h ++ [some (decodeLine uninit l parent)] ++
        chainCells uninit (h.length + 1) (some h.length) ls) (some h.length)
        (fun n => { n with firstChild := if ls.isEmpty then none else some (h.length + 1) }) =
        some (h ++ [some { decodeLine uninit l parent with
          firstChild := if ls.isEmpty then none else some (h.length + 1) }] ++
          chainCells uninit (h.length + 1) (some h.length) ls) := by
      simp only [modify, hd2, hset]
    have hc2 := deserialize_end uninit g (h ++ [some { decodeLine uninit l parent with
          firstChild := if ls.isEmpty then none else some (h.length + 1) }] ++
          chainCells uninit (h.length + 1) (some h.length) ls) parent
    have hd4 : deref (h ++ [some { decodeLine uninit l parent with
          firstChild := if ls.isEmpty then none else some (h.length + 1) }] ++
          chainCells uninit (h.length + 1) (some h.length) ls) (some h.length) =
        some { decodeLine uninit l parent with
          firstChild := if ls.isEmpty then none else some (h.length + 1) } :=
      deref_append_of_some _ (deref_append_new _ _)
    have hm2 : modify (h ++ [some { decodeLine uninit l parent with
          firstChild := if ls.isEmpty then none else some (h.length + 1) }] ++
          chainCells uninit (h.length + 1) (some h.length) ls) (some h.length)
        (fun n => { n with nextSibling := none }) =
        some (h ++ chainCells uninit h.length parent (l :: ls)) := by
      simp only [modify, hd4]
      have := hset (some { decodeLine uninit l parent with
          firstChild := if ls.isEmpty then none else some (h.length + 1) })
      rw [List.set_append_left _ _ (by simp)] at this ⊢
      simp [List.set_append, chainCells]
      rfl
    have := deserialize_build hg hne hc1 hm1 hc2 hm2
    simpa using this

theorem chainCells_length (uninit : Int × Int) :
    ∀ (ls : List (List Char)) (base : Nat) (parent : Ptr),
      (chainCells uninit base parent ls).length = ls.length := by
  intro ls
  induction ls with
  | nil => intro _ _; rfl
  | cons l ls ih => intro base parent; simp [chainCells, ih]

/-- The cell at position `i` of a first-child chain: the node decoded from line `i`, with
the cell before it as parent and the cell after it, if there is one, as `firstChild`. -/
theorem chainCells_get (uninit : Int × Int) :
    ∀ (ls : List (List Char)) (base : Nat) (parent : Ptr) (i : Nat), i < ls.length →
      ∃ line, ls[i]? = some line ∧
        (chainCells uninit base parent ls)[i]? =
          some (some { decodeLine uninit line (if i = 0 then parent else some (base + i - 1)) with
            firstChild := if i + 1 < ls.length then some (base + i + 1) else none }) := by
  intro ls
  induction ls with
  | nil => intro _ _ i hi; simp at hi
  | cons l ls ih =>
    intro base parent i hi
    cases i with
    | zero =>
      refine ⟨l, by simp, ?_⟩
      cases ls <;> simp [chainCells]
    | succ j =>
      obtain ⟨line, hline, hcell⟩ := ih (base + 1) (some base) j (by simpa using hi)
      refine ⟨line, by simpa using hline, ?_⟩
      simp only [chainCells, List.getElem?_cons_succ, hcell, List.length_cons]
      have e1 : (if j = 0 then some base else some (base + 1 + j - 1)) =
          (if j + 1 = 0 then parent else some (base + (j + 1) - 1)) := by
        cases j with
        | zero => simp
        | succ k => simp; omega
      have e2 : (if j + 1 < ls.length then some (base + 1 + j + 1) else none) =
          (if j + 1 + 1 < ls.length + 1 then some (base + (j + 1) + 1) else none) := by
        by_cases hj : j + 1 < ls.length
        · rw [if_pos hj, if_pos (by omega)]
          congr 1
          omega
        · rw [if_neg hj, if_neg (by omega)]
      rw [e1, e2]

theorem preorder_length (t : HTree) : t.preorder.length = t.size := by
  induction t with
  | absent => rfl
  | node a n k s ihk ihs => simp [HTree.preorder, HTree.size, ihk, ihs]

theorem unlines_length_ge (ls : List (List Char)) : ls.length ≤ (unlines ls).length := by
  induction ls with
  | nil => simp
  | cons l ls ih =>
    rw [unlines_cons]
    simp
    omega

/-- C20. For every tree of `k ≥ 1` nodes in the store whose names and contents hold no line
break: the text `serializeNode` writes has exactly the `k` records of the nodes in
pre-order as its lines and no empty line; and `deserializeNode` applied to that text (from
an empty store, with a null parent, for any fuel beyond the length of the text) consumes
all of it and returns a tree of exactly `k` cells that is a single first-child chain: cell
`i` holds the node decoded from line `i`, has no `nextSibling`, has cell `i + 1` as
`firstChild` (none for the last cell) and cell `i - 1` as parent (none for the first). -/
theorem C20_decoded_save_is_a_chain (uninit : Int × Int) (h : Heap) (a : Nat) (t : HTree)
    (ht : IsTree h (some a) t)
    (hclean : ∀ n ∈ t.preorder, '\n' ∉ n.name.data ∧ '\n' ∉ n.content.data) :
    1 ≤ t.size ∧
      serializeNode h h.length (some a) = some t.encode ∧
      linesOf t.encode = t.preorder.map encodeLine ∧ [] ∉ linesOf t.encode ∧
      (∀ fuel, t.encode.length < fuel →
        deserializeNode uninit fuel [] t.encode none =
          some (chainCells uninit 0 none (t.preorder.map encodeLine), [], some 0)) ∧
      (chainCells uninit 0 none (t.preorder.map encodeLine)).length = t.size ∧
      ∀ i, i < t.size → ∃ line n,
        (t.preorder.map encodeLine)[i]? = some line ∧
        (chainCells uninit 0 none (t.preorder.map encodeLine))[i]? = some (some n) ∧
        n = { decodeLine uninit line (if i = 0 then none else some (i - 1)) with
              firstChild := if i + 1 < t.size then some (i + 1) else none } ∧
        n.nextSibling = none := by
  have hsize : (t.preorder.map encodeLine).length = t.size := by
    rw [List.length_map, preorder_length]
  have hlines : ∀ l ∈ t.preorder.map encodeLine, l ≠ [] ∧ '\n' ∉ l := by
    intro l hl
    obtain ⟨n, hn, rfl⟩ := List.mem_map.1 hl
    exact ⟨encodeLine_ne_nil n, encodeLine_no_newline (hclean n hn).1 (hclean n hn).2⟩
  have hlo : linesOf t.encode = t.preorder.map encodeLine := by
    rw [encode_eq_unlines]
    exact linesOf_unlines (fun l hl => (hlines l hl).2)
  have hpos : 1 ≤ t.size := by
    cases ht with
    | node _ _ _ => simp [HTree.size]
  refine ⟨hpos, serializeNode_of_tree ht h.length ht.depth_le, hlo, ?_, ?_, ?_, ?_⟩
  · rw [hlo]
    intro hmem
    exact (hlines [] hmem).1 rfl
  · intro fuel hf
    have hne : (t.preorder.map encodeLine).isEmpty = false := by
      cases hp : t.preorder.map encodeLine with
      | nil => rw [hp] at hsize; simp at hsize; omega
      | cons _ _ => rfl
    have := deserialize_chain uninit (t.preorder.map encodeLine) hlines [] none fuel (by
      have := unlines_length_ge (t.preorder.map encodeLine)
      rw [← encode_eq_unlines] at this
      omega)
    rw [← encode_eq_unlines, hne] at this
    simpa using this
  · rw [chainCells_length, hsize]
  · intro i hi
    obtain ⟨line, hline, hcell⟩ :=
      chainCells_get uninit (t.preorder.map encodeLine) 0 none i (by rw [hsize]; exact hi)
    rw [hsize] at hcell
    refine ⟨line, _, hline, hcell, ?_, rfl⟩
    simp

theorem C20_decoded_save_is_a_chain_witness :
    IsTree twoChildrenFs.heap (some 0) twoChildrenTree ∧
      (∀ n ∈ twoChildrenTree.preorder, '\n' ∉ n.name.data ∧ '\n' ∉ n.content.data) ∧
      twoChildrenTree.size = 3 ∧
      deserializeNode (0, 0) (twoChildrenTree.encode.length + 1) [] twoChildrenTree.encode none
        = some (chainCells (0, 0) 0 none (twoChildrenTree.preorder.map encodeLine), [], some 0) ∧
      chainCells (0, 0) 0 none (twoChildrenTree.preorder.map encodeLine) = twoChildrenDecoded :=
  ⟨twoChildren_isTree, twoChildren_clean, rfl,
    (C20_decoded_save_is_a_chain (0, 0) twoChildrenFs.heap 0 twoChildrenTree twoChildren_isTree
      twoChildren_clean).2.2.2.2.1 _ (Nat.lt_succ_self _),
    by decide⟩

end FS
